import Mathlib

/-!
# whabit-backend-resty: the `request` package (`resty.go`)

A shallow embedding of the client facade and of the response decoder.

The package wraps three libraries that are not part of the repository:
`go-resty/resty/v2`, `spf13/cast` and `encoding/json`.  Of these only the
operations that `resty.go` calls are embedded, as plain functions on the
values they act on:

* `resty.Request`: `SetHeader`, `SetAuthToken`, `SetFormData`, `SetBody` as
  updates of a record; `SetHeader` stores through `http.Header.Set`, which
  files the value under `textproto.CanonicalMIMEHeaderKey` of the key;
* `Request.Execute` runs the request middleware and hands the request to the
  HTTP round trip.  Of the middleware the step that replaces a header the
  facade has set is embedded: form data on a method with a payload makes
  `Content-Type` the form type (`parseRequestBody`, `handleFormData`).  What
  follows it is the transport: an arbitrary function from method, URL and the
  request as it is sent to a response and an error (both may be present, as in
  Go).  The steps that add other headers (`User-Agent`, `Content-Length`, the
  bearer token as `Authorization`), or fill in a `Content-Type` or `Accept`
  that is blank, are not embedded; the facade sets no form data or header on
  the resty client itself;
* `cast.ToStringMapString` / `cast.ToString` on the argument types the facade
  passes;
* `json.Unmarshal` into a `map[string]interface{}` as a parser of JSON texts,
  and `json.Marshal` of such a map as the compact text it writes.

Go maps are association lists whose order is the order of iteration; a Go map
has no duplicate keys, which theorems assume as `Nodup` of the keys where the
value at a key matters.  Go's `int` is taken 64 bits wide.
-/

namespace RestyFacade

/-! ## net/textproto: canonical header keys -/

/-- Token bytes of RFC 7230, the table `isTokenTable` of `net/textproto`. -/
def validHeaderFieldByte (c : Char) : Bool :=
  let n := c.toNat
  (48 ≤ n && n ≤ 57) || (65 ≤ n && n ≤ 90) || (97 ≤ n && n ≤ 122) ||
    [33, 35, 36, 37, 38, 39, 42, 43, 45, 46, 94, 95, 96, 124, 126].contains n

/-- The canonicalising loop of `canonicalMIMEHeaderKey`: the first letter and
every letter after a dash in upper case, every other letter in lower case. -/
def canonicalMIMEHeaderKey : Bool → List Char → List Char
  | _, [] => []
  | upper, c :: cs =>
    let n := c.toNat
    let d : Char :=
      if upper && (97 ≤ n && n ≤ 122) then Char.ofNat (n - 32)
      else if !upper && (65 ≤ n && n ≤ 90) then Char.ofNat (n + 32)
      else c
    d :: canonicalMIMEHeaderKey (d == '-') cs

/-- The function `textproto.CanonicalMIMEHeaderKey`: a key holding a byte that
is not a token byte (a space included) is returned unchanged. -/
def CanonicalMIMEHeaderKey (s : String) : String :=
  if s.toList.all validHeaderFieldByte then String.mk (canonicalMIMEHeaderKey true s.toList)
  else s

/-! ## net/http and net/url: header and form stores -/

/-- The Go type `http.Header` (`map[string][]string`), by lookup. -/
abbrev Header := String → Option (List String)

/-- The Go type `url.Values` (`map[string][]string`), by its entries; the
values at a key are read with `List.lookup`. -/
abbrev Values := List (String × List String)

/-- The empty store. -/
def emptyStore : String → Option (List String) := fun _ => none

/-- `http.Header.Set`: replaces the values filed under the canonical key. -/
def Header.Set (h : Header) (key value : String) : Header :=
  fun k => if k = CanonicalMIMEHeaderKey key then some [value] else h k

/-- `http.Header.Get`: the first value under the canonical key, `""` if none. -/
def Header.Get (h : Header) (key : String) : String :=
  match h (CanonicalMIMEHeaderKey key) with
  | some (v :: _) => v
  | _ => ""

/-- `url.Values.Set`: replaces the values at the key, taken verbatim. -/
def Values.Set (v : Values) (key value : String) : Values :=
  if v.any (fun e => e.1 == key) then v.map (fun e => if e.1 = key then (key, [value]) else e)
  else v ++ [(key, [value])]

/-! ## interface values and spf13/cast -/

/-- Values of Go's `interface{}` as the facade and `cast.ToString` tell them
apart.  A floating-point number stands as the text that
`strconv.FormatFloat(v, 'f', -1, bits)` writes for it, and a value of another
type that has a string form (a `fmt.Stringer`, an `error`, a `json.Number`, a
named string type) as that text. -/
inductive Any where
  | nil
  | str (s : String)
  | int (i : Int)
  | bool (b : Bool)
  | float (text : String)
  | bytes (s : String)
  | textual (text : String)
  | plain (tag : Nat)
  deriving DecidableEq, Repr

/-- `cast.ToString`: the error of `ToStringE` is dropped, so a value with no
string form gives `""`. -/
def ToString : Any → String
  | .nil => ""
  | .str s => s
  | .int i => toString i
  | .bool b => if b then "true" else "false"
  | .float text => text
  | .bytes s => s
  | .textual text => text
  | .plain _ => ""

/-- The argument types of `cast.ToStringMapString` that the facade passes. -/
inductive MapArg where
  | mapStringString (m : List (String × String))
  | mapStringInterface (m : List (String × Any))

/-- `cast.ToStringMapString`: a `map[string]string` is returned as it is, a
`map[string]interface{}` entry by entry through `ToString`. -/
def ToStringMapString : MapArg → List (String × String)
  | .mapStringString m => m
  | .mapStringInterface m => m.map (fun kv => (kv.1, ToString kv.2))

/-! ## resty: request, response, client -/

/-- The fields of `resty.Request` that the facade writes. -/
structure Request where
  Header : Header
  Token : String
  FormData : Values
  Body : Any

/-- The fields of `resty.Response` that the package reads or could read. -/
structure Response where
  StatusCode : Nat
  Header : Header
  body : List Char

/-- Go `error` values: those of `errors.New`, those of `encoding/json`, and
those a transport produces. -/
inductive Error where
  | errorString (s : String)
  | jsonSyntax
  | jsonUnmarshalType (value : String)
  | transport (msg : String)
  deriving DecidableEq, Repr

/-- What a Go function of result type `(*resty.Response, error)` returns. -/
abbrev Outcome := Option Response × Option Error

/-- The HTTP round trip at the end of `Request.Execute`: what comes back for a
method, a URL and the request as it is sent. -/
abbrev Transport := String → String → Request → Outcome

def MethodGet : String := "GET"
def MethodPost : String := "POST"
def MethodPut : String := "PUT"
def MethodDelete : String := "DELETE"
def MethodPatch : String := "PATCH"
def MethodHead : String := "HEAD"
def MethodOptions : String := "OPTIONS"

/-- `Request.SetHeader`. -/
def Request.SetHeader (r : Request) (header value : String) : Request :=
  { r with Header := r.Header.Set header value }

/-- `Request.SetAuthToken`. -/
def Request.SetAuthToken (r : Request) (token : String) : Request :=
  { r with Token := token }

/-- `Request.SetFormData`: one `FormData.Set` per entry of the map. -/
def Request.SetFormData (r : Request) (data : List (String × String)) : Request :=
  data.foldl (fun acc kv => { acc with FormData := acc.FormData.Set kv.1 kv.2 }) r

/-- `Request.SetBody`. -/
def Request.SetBody (r : Request) (body : Any) : Request :=
  { r with Body := body }

/-- The constant `formContentType` of resty. -/
def formContentType : String := "application/x-www-form-urlencoded"

/-- The function `isPayloadSupported` of resty, `AllowGetMethodPayload` unset. -/
def isPayloadSupported (m : String) : Bool :=
  !(m == MethodHead || m == MethodOptions || m == MethodGet)

/-- The form-data step of the middleware `parseRequestBody`: for a method with
a payload and a request with form data, `handleFormData` sets `Content-Type`
to the form type. -/
def parseRequestBody (method : String) (r : Request) : Request :=
  if isPayloadSupported method && decide (r.FormData.length > 0) then
    r.SetHeader "Content-Type" formContentType
  else r

/-- `Request.Execute`: the middleware, then the round trip. -/
def Request.Execute (r : Request) (T : Transport) (method url : String) : Outcome :=
  T method url (parseRequestBody method r)

/-- The fields of `resty.Client` that the facade sets; `timeout` is a
`time.Duration`, a count of nanoseconds. -/
structure RestyClient where
  HostURL : String
  setContentLength : Bool
  Debug : Bool
  trace : Bool
  timeout : Int

/-- `resty.New()`. -/
def RestyClient.new : RestyClient :=
  { HostURL := "", setContentLength := false, Debug := false, trace := false, timeout := 0 }

/-- `Client.R()`: a request with no header, token, form data or body. -/
def RestyClient.R (_rc : RestyClient) : Request :=
  { Header := emptyStore, Token := "", FormData := [], Body := Any.nil }

/-- `strings.TrimRight(s, "/")`. -/
def trimRightSlash (s : String) : String :=
  String.mk (s.toList.reverse.dropWhile (fun c => c == '/')).reverse

/-- `Client.SetHostURL` of resty: the URL without its trailing slashes. -/
def RestyClient.SetHostURL (rc : RestyClient) (url : String) : RestyClient :=
  { rc with HostURL := trimRightSlash url }

/-- `Client.SetTimeout` of resty. -/
def RestyClient.SetTimeout (rc : RestyClient) (d : Int) : RestyClient :=
  { rc with timeout := d }

/-! ## resty.go -/

structure Client where
  restyClient : RestyClient
  hostURL : String
  debug : Bool

def initRestyClient (host : String) (debug : Bool) : RestyClient :=
  let rc := RestyClient.new
  let rc := rc.SetHostURL host
  let rc := { rc with setContentLength := true }
  let rc := { rc with Debug := debug }
  if debug then { rc with trace := true } else rc

def New (host : String) (debug : Bool) : Client :=
  { restyClient := initRestyClient host debug, hostURL := host, debug := debug }

def execute (T : Transport) (method url : String) (req : Request) : Outcome :=
  req.Execute T method url

def Get (T : Transport) (url : String) (req : Request) : Outcome :=
  match execute T MethodGet url req with
  | (_, some err) => (none, some err)
  | (resp, none) => (resp, none)

def Post (T : Transport) (url : String) (req : Request) : Outcome :=
  match execute T MethodPost url req with
  | (_, some err) => (none, some err)
  | (resp, none) => (resp, none)

def SetRequestBody (data : List (String × Any)) (req : Request) : Request :=
  req.SetFormData (ToStringMapString (.mapStringInterface data))

def Client.GetRestyClient (c : Client) : RestyClient := c.restyClient

def Client.GetHost (c : Client) : String := c.hostURL

def Client.GetDebug (c : Client) : Bool := c.debug

/-- Two's-complement wrap of an integer to 64 bits. -/
def wrapInt64 (x : Int) : Int := (x + 2 ^ 63) % 2 ^ 64 - 2 ^ 63

/-- The constant `time.Second`, in nanoseconds. -/
def timeSecond : Int := 1000000000

/-- `second * int(time.Second)` with `int` 64 bits wide. -/
def Client.SetTimeout (c : Client) (second : Int) : Client :=
  let newRc := c.restyClient.SetTimeout (wrapInt64 (second * timeSecond))
  { c with restyClient := newRc }

def Client.setHeader (_c : Client) (req : Request) (header : Option (List (String × String))) :
    Request :=
  let header := match header with
    | none => []
    | some h => h
  let req := req.SetHeader "Content-Type" "application/json"
  let req := req.SetHeader "Accept" "application/json"
  if header.length > 0 then
    header.foldl (fun r kv =>
      if kv.1 = "Authorization" then r.SetAuthToken kv.2 else r.SetHeader kv.1 kv.2) req
  else req

def Client.initRequest (c : Client) (header : Option (List (String × String))) : Request :=
  let req := c.GetRestyClient.R
  c.setHeader req header

def Client.NewRequest (c : Client) (header : Option (List (String × String))) : Request :=
  c.initRequest header

def Client.Get (c : Client) (T : Transport) (url : String)
    (header : Option (List (String × String))) : Outcome :=
  let req := c.initRequest header
  match execute T MethodGet url req with
  | (_, some err) => (none, some err)
  | (resp, none) => (resp, none)

def Client.Post (c : Client) (T : Transport) (url : String)
    (header : Option (List (String × String))) (data : Option (List (String × String))) :
    Outcome :=
  let req := c.initRequest header
  let req := match data with
    | some d => req.SetFormData (ToStringMapString (.mapStringString d))
    | none => req
  match execute T MethodPost url req with
  | (_, some err) => (none, some err)
  | (resp, none) => (resp, none)

def Client.PostWithRawData (c : Client) (T : Transport) (url : String)
    (header : Option (List (String × String))) (data : Any) : Outcome :=
  let req := c.initRequest header
  let req := if data ≠ Any.nil then req.SetBody data else req
  execute T MethodPost url req

def Client.Delete (c : Client) (T : Transport) (url : String)
    (header : Option (List (String × String))) : Outcome :=
  let req := c.initRequest header
  execute T MethodDelete url req

def Client.DeleteWithRawData (c : Client) (T : Transport) (url : String)
    (header : Option (List (String × String))) (data : Any) : Outcome :=
  let req := c.initRequest header
  let req := if data ≠ Any.nil then req.SetBody data else req
  execute T MethodDelete url req

def Client.Put (c : Client) (T : Transport) (url : String)
    (header : Option (List (String × String))) (data : Option (List (String × String))) :
    Outcome :=
  let req := c.initRequest header
  let req := match data with
    | some d => req.SetFormData (ToStringMapString (.mapStringString d))
    | none => req
  match execute T MethodPut url req with
  | (_, some err) => (none, some err)
  | (resp, none) => (resp, none)

def Client.PatchWithRawData (c : Client) (T : Transport) (url : String)
    (header : Option (List (String × String))) (data : Any) : Outcome :=
  let req := c.initRequest header
  let req := if data ≠ Any.nil then req.SetBody data else req
  execute T MethodPost url req

def Client.Head (c : Client) (T : Transport) (url : String)
    (header : Option (List (String × String))) : Outcome :=
  let req := c.initRequest header
  execute T MethodHead url req

/-! ## encoding/json

The decoder is embedded on texts of Unicode scalar values (a body that is
valid UTF-8).  A number is kept as the text of its literal; of its conversion
to `float64` the range error is embedded, the rounding is not. -/

/-- What `json.Unmarshal` stores in an `interface{}`: nil, a bool, a number, a
string, a slice, or a map with string keys. -/
inductive JSONValue where
  | null
  | bool (b : Bool)
  | number (lit : List Char)
  | string (s : String)
  | array (xs : List JSONValue)
  | object (kvs : List (String × JSONValue))

/-- The white space of the scanner. -/
def isSpace (c : Char) : Bool := c == ' ' || c == '\t' || c == '\r' || c == '\n'

/-- Input after its leading white space. -/
def skipSpace : List Char → List Char
  | [] => []
  | c :: cs => if isSpace c then skipSpace cs else c :: cs

/-- Value of a hexadecimal digit. -/
def hexVal (c : Char) : Option Nat :=
  let n := c.toNat
  if 48 ≤ n ∧ n ≤ 57 then some (n - 48)
  else if 97 ≤ n ∧ n ≤ 102 then some (n - 87)
  else if 65 ≤ n ∧ n ≤ 70 then some (n - 55)
  else none

/-- The function `getu4`: the code unit of a leading `\\uXXXX` and the rest. -/
def getu4 : List Char → Option (Nat × List Char)
  | '\\' :: 'u' :: a :: b :: c :: d :: rest =>
    match hexVal a, hexVal b, hexVal c, hexVal d with
    | some x, some y, some z, some w => some (((x * 16 + y) * 16 + z) * 16 + w, rest)
    | _, _, _, _ => none
  | _ => none

/-- The function `unquote` after the opening quote: the decoded string and the
input after the closing quote.  Surrogate escapes pair up or give U+FFFD. -/
def unquoteBody : Nat → List Char → Option (List Char × List Char)
  | 0, _ => none
  | _ + 1, [] => none
  | fuel + 1, c :: rest =>
    if c = '"' then some ([], rest)
    else if c = '\\' then
      match rest with
      | [] => none
      | e :: rest' =>
        if e = 'u' then
          match getu4 (c :: rest) with
          | none => none
          | some (rr, r1) =>
            if 0xD800 ≤ rr ∧ rr < 0xE000 then
              match getu4 r1 with
              | some (rr1, r2) =>
                if rr < 0xDC00 ∧ 0xDC00 ≤ rr1 ∧ rr1 < 0xE000 then
                  (unquoteBody fuel r2).map fun p =>
                    (Char.ofNat ((rr - 0xD800) * 1024 + (rr1 - 0xDC00) + 0x10000) :: p.1, p.2)
                else (unquoteBody fuel r1).map fun p => (Char.ofNat 0xFFFD :: p.1, p.2)
              | none => (unquoteBody fuel r1).map fun p => (Char.ofNat 0xFFFD :: p.1, p.2)
            else (unquoteBody fuel r1).map fun p => (Char.ofNat rr :: p.1, p.2)
        else
          let d : Option Char :=
            if e = '"' ∨ e = '\\' ∨ e = '/' then some e
            else if e = 'b' then some (Char.ofNat 8)
            else if e = 'f' then some (Char.ofNat 12)
            else if e = 'n' then some '\n'
            else if e = 'r' then some '\r'
            else if e = 't' then some '\t'
            else none
          match d with
          | none => none
          | some d => (unquoteBody fuel rest').map fun p => (d :: p.1, p.2)
    else if c.toNat < 0x20 then none
    else (unquoteBody fuel rest).map fun p => (c :: p.1, p.2)

/-- Decimal digit. -/
def isDigit (c : Char) : Bool := 48 ≤ c.toNat && c.toNat ≤ 57

/-- The leading digits and the rest. -/
def takeDigits : List Char → List Char × List Char
  | [] => ([], [])
  | c :: cs => if isDigit c then ((takeDigits cs).1.cons c, (takeDigits cs).2) else ([], c :: cs)


/-- An optional leading minus sign of a number. -/
def scanSign : List Char → List Char × List Char
  | [] => ([], [])
  | c :: r => if c = '-' then ([c], r) else ([], c :: r)

/-- The integer part of a number: `0` alone, or a digit and the digits after
it. -/
def scanInt : List Char → Option (List Char × List Char)
  | [] => none
  | c :: r =>
    if !isDigit c then none
    else if c = '0' then some ([c], r)
    else some (c :: (takeDigits r).1, (takeDigits r).2)

/-- The optional fraction of a number: a dot and at least one digit. -/
def scanFrac : List Char → Option (List Char × List Char)
  | [] => some ([], [])
  | d :: r =>
    if d = '.' then
      (if (takeDigits r).1 = [] then none
       else some (d :: (takeDigits r).1, (takeDigits r).2))
    else some ([], d :: r)

/-- The optional sign of an exponent. -/
def scanExpSign : List Char → List Char × List Char
  | [] => ([], [])
  | c :: r => if c = '+' ∨ c = '-' then ([c], r) else ([], c :: r)

/-- The optional exponent of a number: `e` or `E`, an optional sign and at
least one digit. -/
def scanExp : List Char → Option (List Char × List Char)
  | [] => some ([], [])
  | e :: r =>
    if e = 'e' ∨ e = 'E' then
      (if (takeDigits (scanExpSign r).2).1 = [] then none
       else some (e :: ((scanExpSign r).1 ++ (takeDigits (scanExpSign r).2).1),
         (takeDigits (scanExpSign r).2).2))
    else some ([], e :: r)

/-- The scanner's number syntax: the literal consumed and the rest. -/
def scanNumber (cs : List Char) : Option (List Char × List Char) :=
  match scanInt (scanSign cs).2 with
  | none => none
  | some (i, r1) =>
    match scanFrac r1 with
    | none => none
    | some (f, r2) =>
      match scanExp r2 with
      | none => none
      | some (e, r3) => some ((scanSign cs).1 ++ (i ++ (f ++ e)), r3)

/-- Value of a run of decimal digits. -/
def digitsValue (ds : List Char) : Nat :=
  ds.foldl (fun a c => a * 10 + (c.toNat - 48)) 0

/-- The least magnitude that `strconv.ParseFloat` rounds out of the range of
`float64`: the largest `float64` plus half a unit in its last place. -/
def float64Limit : Nat := 2 ^ 1024 - 2 ^ 970

/-- Whether `mant * 10 ^ exp` reaches `float64Limit`. -/
def reachesLimit (mant : Nat) (exp : Int) : Bool :=
  if 0 ≤ exp then decide (float64Limit ≤ mant * 10 ^ exp.toNat)
  else decide (float64Limit * 10 ^ (-exp).toNat ≤ mant)

/-- The exponent that the exponent part of a literal denotes; 0 without one. -/
def expValue (e : List Char) : Int :=
  match e with
  | [] => 0
  | _ :: s =>
    if (scanExpSign s).1 = ['-'] then -(digitsValue (scanExpSign s).2 : Int)
    else (digitsValue (scanExpSign s).2 : Int)

/-- Whether `strconv.ParseFloat(lit, 64)` fails with a range error on a number
literal: its magnitude, the digits of integer part and fraction scaled by the
exponent, reaches `float64Limit`. -/
def floatOverflows (lit : List Char) : Bool :=
  match scanInt (scanSign lit).2 with
  | none => false
  | some (i, r1) =>
    match scanFrac r1 with
    | none => false
    | some (f, r2) =>
      match scanExp r2 with
      | none => false
      | some (e, _) =>
        reachesLimit (digitsValue (i ++ f.drop 1)) (expValue e - ((f.drop 1).length : Int))

/-- The constant `maxNestingDepth` of the scanner. -/
def maxNestingDepth : Nat := 10000

mutual
/-- The value at the head of the input, after white space, and the rest, as the
scanner reads it.  The first argument bounds the number of nested calls, the
second is the number of levels of nesting still allowed: a bracket opened
beyond it is the syntax error "exceeded max depth".  The members of an object
are in the order of the text. -/
def parseValue : Nat → Nat → List Char → Option (JSONValue × List Char)
  | 0, _, _ => none
  | fuel + 1, depth, cs =>
    match skipSpace cs with
    | [] => none
    | c :: rest =>
      if c = '{' then
        match depth with
        | 0 => none
        | depth + 1 =>
          match skipSpace rest with
          | [] => none
          | d :: r =>
            if d = '}' then some (.object [], r)
            else (parseMembers fuel depth (d :: r)).map fun p => (.object p.1, p.2)
      else if c = '[' then
        match depth with
        | 0 => none
        | depth + 1 =>
          match skipSpace rest with
          | [] => none
          | d :: r =>
            if d = ']' then some (.array [], r)
            else (parseElems fuel depth (d :: r)).map fun p => (.array p.1, p.2)
      else if c = '"' then
        (unquoteBody (rest.length + 1) rest).map fun p => (.string (String.mk p.1), p.2)
      else if c = 't' then
        match rest with
        | 'r' :: 'u' :: 'e' :: r => some (.bool true, r)
        | _ => none
      else if c = 'f' then
        match rest with
        | 'a' :: 'l' :: 's' :: 'e' :: r => some (.bool false, r)
        | _ => none
      else if c = 'n' then
        match rest with
        | 'u' :: 'l' :: 'l' :: r => some (.null, r)
        | _ => none
      else (scanNumber (c :: rest)).map fun p => (.number p.1, p.2)
def parseElems : Nat → Nat → List Char → Option (List JSONValue × List Char)
  | 0, _, _ => none
  | fuel + 1, depth, cs =>
    match parseValue fuel depth cs with
    | none => none
    | some (v, r) =>
      match skipSpace r with
      | [] => none
      | c :: r1 =>
        if c = ',' then (parseElems fuel depth r1).map fun p => (v :: p.1, p.2)
        else if c = ']' then some ([v], r1)
        else none
def parseMembers : Nat → Nat → List Char → Option (List (String × JSONValue) × List Char)
  | 0, _, _ => none
  | fuel + 1, depth, cs =>
    match cs with
    | [] => none
    | q :: r0 =>
      if q ≠ '"' then none
      else
        match unquoteBody (r0.length + 1) r0 with
        | none => none
        | some (k, r1) =>
          match skipSpace r1 with
          | [] => none
          | c1 :: r2 =>
            if c1 ≠ ':' then none
            else
              match parseValue fuel depth r2 with
              | none => none
              | some (v, r3) =>
                match skipSpace r3 with
                | [] => none
                | c2 :: r4 =>
                  if c2 = ',' then
                    (parseMembers fuel depth (skipSpace r4)).map
                      fun p => ((String.mk k, v) :: p.1, p.2)
                  else if c2 = '}' then some ([(String.mk k, v)], r4)
                  else none
end

/-- The scanner pass `checkValid` with the value read: one value between
optional white space, nested at most `maxNestingDepth` deep, and nothing else. -/
def parseJSON (data : List Char) : Option JSONValue :=
  match parseValue (2 * data.length + 2) maxNestingDepth data with
  | none => none
  | some (v, rest) => if skipSpace rest = [] then some v else none

/-- Assignment `m[k] = v` on a Go map. -/
def mapSet (m : List (String × JSONValue)) (kv : String × JSONValue) :
    List (String × JSONValue) :=
  if m.any (fun e => e.1 == kv.1) then m.map (fun e => if e.1 = kv.1 then kv else e)
  else m ++ [kv]

mutual
/-- What the decoder stores for a value read: a number out of the range of
`float64` is left nil, the members of an object are assigned to a map one after
the other, a later member replacing an earlier one of the same key. -/
def toInterface : JSONValue → JSONValue
  | .null => .null
  | .bool b => .bool b
  | .number lit => if floatOverflows lit then .null else .number lit
  | .string s => .string s
  | .array xs => .array (toInterfaceElems xs)
  | .object kvs => .object ((toInterfaceMembers kvs).foldl mapSet [])
def toInterfaceElems : List JSONValue → List JSONValue
  | [] => []
  | x :: xs => toInterface x :: toInterfaceElems xs
def toInterfaceMembers : List (String × JSONValue) → List (String × JSONValue)
  | [] => []
  | kv :: rest => (kv.1, toInterface kv.2) :: toInterfaceMembers rest
end

mutual
/-- The first number literal of a value, in the order of the text, that is out
of the range of `float64`: the error that the decoder saves. -/
def firstOverflow : JSONValue → Option (List Char)
  | .null => none
  | .bool _ => none
  | .number lit => if floatOverflows lit then some lit else none
  | .string _ => none
  | .array xs => firstOverflowElems xs
  | .object kvs => firstOverflowMembers kvs
def firstOverflowElems : List JSONValue → Option (List Char)
  | [] => none
  | x :: xs =>
    match firstOverflow x with
    | some lit => some lit
    | none => firstOverflowElems xs
def firstOverflowMembers : List (String × JSONValue) → Option (List Char)
  | [] => none
  | kv :: rest =>
    match firstOverflow kv.2 with
    | some lit => some lit
    | none => firstOverflowMembers rest
end

/-- `json.Unmarshal(data, &body)` for `body` an empty `map[string]interface{}`:
the map afterwards (`none` is the nil map) and the error.  A syntax error or a
value of another shape leaves the map as it was; `null` sets the map to nil
and is no error; an object is stored, with the error of the first number out
of range if there is one. -/
def Unmarshal (data : List Char) : Option (List (String × JSONValue)) × Option Error :=
  match parseJSON data with
  | none => (some [], some Error.jsonSyntax)
  | some .null => (none, none)
  | some (.object kvs) =>
    match firstOverflowMembers kvs with
    | some lit =>
      (some ((toInterfaceMembers kvs).foldl mapSet []),
        some (Error.jsonUnmarshalType ("number " ++ String.mk lit)))
    | none => (some ((toInterfaceMembers kvs).foldl mapSet []), none)
  | some (.bool _) => (some [], some (Error.jsonUnmarshalType "bool"))
  | some (.number _) => (some [], some (Error.jsonUnmarshalType "number"))
  | some (.string _) => (some [], some (Error.jsonUnmarshalType "string"))
  | some (.array _) => (some [], some (Error.jsonUnmarshalType "array"))

/-- Go's `len` of a map; the nil map has length 0. -/
def mapLen (m : Option (List (String × JSONValue))) : Nat :=
  match m with
  | none => 0
  | some kvs => kvs.length

def GetBodyJSON (resp : Option Response) :
    Option (List (String × JSONValue)) × Option Error :=
  match resp with
  | none => (none, some (Error.errorString "response not found"))
  | some resp =>
    let bodyBytes := resp.body
    match Unmarshal bodyBytes with
    | (_, some err) => (none, some err)
    | (body, none) =>
      if mapLen body = 0 then (none, some (Error.errorString "body not found"))
      else (body, none)

/-! ## JSON serialization -/

/-- Lower-case hexadecimal digit. -/
def hexDigit (n : Nat) : Char :=
  if n < 10 then Char.ofNat (48 + n) else Char.ofNat (87 + n)

/-- The escape `\\u00XX` and its kin: four hexadecimal digits of a code unit. -/
def escapeU (n : Nat) : List Char :=
  ['\\', 'u', hexDigit (n / 4096 % 16), hexDigit (n / 256 % 16), hexDigit (n / 16 % 16),
    hexDigit (n % 16)]

/-- One character of a string as `json.Marshal` writes it: quote, backslash,
backspace, form feed, line feed, carriage return and tab with their short
escape; the other control characters, `<`, `>`, `&`, U+2028 and U+2029 as
`\\u` escapes. -/
def encodeChar (c : Char) : List Char :=
  if c = '"' then ['\\', '"']
  else if c = '\\' then ['\\', '\\']
  else if c = Char.ofNat 8 then ['\\', 'b']
  else if c = Char.ofNat 12 then ['\\', 'f']
  else if c = '\n' then ['\\', 'n']
  else if c = '\r' then ['\\', 'r']
  else if c = '\t' then ['\\', 't']
  else if c.toNat < 0x20 ∨ c = '<' ∨ c = '>' ∨ c = '&' ∨ c.toNat = 0x2028 ∨ c.toNat = 0x2029 then
    escapeU c.toNat
  else [c]

/-- Characters of a string between the quotes. -/
def encodeChars : List Char → List Char
  | [] => []
  | c :: cs => encodeChar c ++ encodeChars cs

/-- String literal of a string. -/
def encodeString (s : String) : List Char :=
  '"' :: (encodeChars s.data ++ ['"'])

mutual
/-- Compact JSON text of a value; the members of an object in the order of the
list. -/
def encodeValue : JSONValue → List Char
  | .null => ['n', 'u', 'l', 'l']
  | .bool true => ['t', 'r', 'u', 'e']
  | .bool false => ['f', 'a', 'l', 's', 'e']
  | .number lit => lit
  | .string s => encodeString s
  | .array xs => '[' :: (encodeElems xs ++ [']'])
  | .object kvs => '{' :: (encodeMembers kvs ++ ['}'])
def encodeElems : List JSONValue → List Char
  | [] => []
  | [x] => encodeValue x
  | x :: y :: rest => encodeValue x ++ ',' :: encodeElems (y :: rest)
def encodeMembers : List (String × JSONValue) → List Char
  | [] => []
  | [kv] => encodeString kv.1 ++ ':' :: encodeValue kv.2
  | kv :: kw :: rest =>
    encodeString kv.1 ++ ':' :: (encodeValue kv.2 ++ ',' :: encodeMembers (kw :: rest))
end

/-- The order of two keys that `json.Marshal` sorts by: `strings.Compare` is
at most 0.  It compares the bytes of the UTF-8 encodings, which order as the
characters do. -/
def keyLE : List Char → List Char → Bool
  | [], _ => true
  | _ :: _, [] => false
  | a :: as, b :: bs =>
    if a.toNat < b.toNat then true
    else if b.toNat < a.toNat then false
    else keyLE as bs

/-- The members of a map in the order of their keys, the order in which
`json.Marshal` writes them. -/
def sortMembers (kvs : List (String × JSONValue)) : List (String × JSONValue) :=
  kvs.insertionSort (fun a b => keyLE a.1.data b.1.data = true)

mutual
/-- A value with the members of every map in the order of their keys: the
same Go value, listed the way `json.Marshal` walks it. -/
def canon : JSONValue → JSONValue
  | .null => .null
  | .bool b => .bool b
  | .number lit => .number lit
  | .string s => .string s
  | .array xs => .array (canonElems xs)
  | .object kvs => .object (sortMembers (canonMembers kvs))
def canonElems : List JSONValue → List JSONValue
  | [] => []
  | x :: xs => canon x :: canonElems xs
def canonMembers : List (String × JSONValue) → List (String × JSONValue)
  | [] => []
  | kv :: rest => (kv.1, canon kv.2) :: canonMembers rest
end

/-- `json.Marshal` of a map with string keys: the compact text, the members of
every map sorted by key. -/
def Marshal (m : List (String × JSONValue)) : List Char :=
  encodeValue (canon (.object m))

/-- A finite `float64` as `json.Marshal` writes it: an optional sign, the
integer part, the digits of the fraction if there are any, and an exponent if
one is written. -/
structure NumberLit where
  neg : Bool
  int : Nat
  frac : List (Fin 10)
  exp : Option Int

/-- The digits of a fraction as characters. -/
def fracText (ds : List (Fin 10)) : List Char :=
  ds.map (fun d => Char.ofNat (48 + d.val))

/-- The number that the digits of a fraction spell, read as an integer. -/
def fracValue (ds : List (Fin 10)) : Nat :=
  ds.foldl (fun a d => a * 10 + d.val) 0

/-- The text of a number: `-`, the integer part in decimal, `.` and the
fraction, `e`, the sign of the exponent and its magnitude in decimal. -/
def NumberLit.text (n : NumberLit) : List Char :=
  (if n.neg then ['-'] else []) ++
    (Nat.toDigits 10 n.int ++
      ((if n.frac = [] then [] else '.' :: fracText n.frac) ++
        (match n.exp with
          | none => []
          | some e => 'e' :: (if e < 0 then '-' else '+') :: Nat.toDigits 10 e.natAbs)))

/-- The magnitude of the number is below `float64Limit`, as that of every
finite `float64` is. -/
def NumberLit.finite (n : NumberLit) : Prop :=
  (0 ≤ n.exp.getD 0 - (n.frac.length : Int) →
    (n.int * 10 ^ n.frac.length + fracValue n.frac) *
      10 ^ (n.exp.getD 0 - (n.frac.length : Int)).toNat < float64Limit) ∧
  (n.exp.getD 0 - (n.frac.length : Int) < 0 →
    n.int * 10 ^ n.frac.length + fracValue n.frac <
      float64Limit * 10 ^ (-(n.exp.getD 0 - (n.frac.length : Int))).toNat)

mutual
/-- A value as Go can hold it: every number is the text of a finite `float64`
and no map has a key twice. -/
def wfValue : JSONValue → Prop
  | .null => True
  | .bool _ => True
  | .number lit => ∃ n : NumberLit, n.finite ∧ lit = n.text
  | .string _ => True
  | .array xs => wfElems xs
  | .object kvs => wfMembers kvs ∧ (kvs.map Prod.fst).Nodup
def wfElems : List JSONValue → Prop
  | [] => True
  | x :: xs => wfValue x ∧ wfElems xs
def wfMembers : List (String × JSONValue) → Prop
  | [] => True
  | kv :: rest => wfValue kv.2 ∧ wfMembers rest
end

mutual
/-- How deep the brackets of a value nest. -/
def depth : JSONValue → Nat
  | .null => 0
  | .bool _ => 0
  | .number _ => 0
  | .string _ => 0
  | .array xs => 1 + depthElems xs
  | .object kvs => 1 + depthMembers kvs
def depthElems : List JSONValue → Nat
  | [] => 0
  | x :: xs => max (depth x) (depthElems xs)
def depthMembers : List (String × JSONValue) → Nat
  | [] => 0
  | kv :: rest => max (depth kv.2) (depthMembers rest)
end

mutual
/-- Equality of two values as Go holds them: slices are equal element by
element, and maps when they have the same number of keys and every key of the
one has an equal value in the other, in whatever order the two are listed. -/
def sameValue : JSONValue → JSONValue → Prop
  | .null, w => w = .null
  | .bool b, w => w = .bool b
  | .number lit, w => w = .number lit
  | .string s, w => w = .string s
  | .array xs, w => ∃ ys, w = .array ys ∧ sameElems xs ys
  | .object kvs, w => ∃ kws, w = .object kws ∧ kvs.length = kws.length ∧ sameMembers kvs kws
def sameElems : List JSONValue → List JSONValue → Prop
  | [], ys => ys = []
  | x :: xs, ys => ∃ y ys', ys = y :: ys' ∧ sameValue x y ∧ sameElems xs ys'
def sameMembers : List (String × JSONValue) → List (String × JSONValue) → Prop
  | [], _ => True
  | kv :: rest, kws => (∃ w, (kv.1, w) ∈ kws ∧ sameValue kv.2 w) ∧ sameMembers rest kws
end

/-- Arrays nested `n + 1` deep, the innermost empty. -/
def nestedArray : Nat → JSONValue
  | 0 => .array []
  | n + 1 => .array [nestedArray n]

/-! ## Vocabulary of the statements -/

/-- The entries of a caller's map; a nil map has none. -/
def mapEntries (m : Option (List (String × String))) : List (String × String) :=
  match m with
  | none => []
  | some h => h

/-- The result shape of the verbs that test the error: on an error the
response is dropped, otherwise the pair is handed on. -/
def surface : Outcome → Outcome
  | (_, some err) => (none, some err)
  | (resp, none) => (resp, none)

/-- A request carries both JSON default headers. -/
def HasJSONDefaults (r : Request) : Prop :=
  r.Header "Content-Type" = some ["application/json"] ∧
    r.Header "Accept" = some ["application/json"]

/-- A request carries the form content type and the JSON default of `Accept`. -/
def HasFormType (r : Request) : Prop :=
  r.Header "Content-Type" = some [formContentType] ∧
    r.Header "Accept" = some ["application/json"]

/-- Input on which a number ends: nothing, or a character that no number
holds. -/
def EndsNumber (rest : List Char) : Prop :=
  ∀ c r, rest = c :: r →
    isDigit c = false ∧ c ≠ '.' ∧ c ≠ 'e' ∧ c ≠ 'E' ∧ c ≠ '+' ∧ c ≠ '-'

/-- Input that does not go on with a digit. -/
def NoDigitHead (rest : List Char) : Prop :=
  ∀ c r, rest = c :: r → isDigit c = false

/-- The sign of a number text. -/
def signPart (n : NumberLit) : List Char := if n.neg then ['-'] else []

/-- The fraction of a number text, with its dot. -/
def fracPart (n : NumberLit) : List Char :=
  if n.frac = [] then [] else '.' :: fracText n.frac

/-- The exponent of a number text, with its letter and sign. -/
def expPart (n : NumberLit) : List Char :=
  match n.exp with
  | none => []
  | some e => 'e' :: (if e < 0 then '-' else '+') :: Nat.toDigits 10 e.natAbs

/-- Input that may follow a value inside the compact text: nothing, a comma or
a closing bracket. -/
def Stops (rest : List Char) : Prop :=
  ∀ c r, rest = c :: r → c = ',' ∨ c = ']' ∨ c = '}'

/-- What the first character of a value is not: white space, a closing
bracket, a comma or a colon. -/
def ValueHead (c : Char) : Prop :=
  isSpace c = false ∧ c ≠ ']' ∧ c ≠ '}' ∧ c ≠ ',' ∧ c ≠ ':'

mutual
/-- Number of nested calls of the parser that a value needs. -/
def cost : JSONValue → Nat
  | .null => 1
  | .bool _ => 1
  | .number _ => 1
  | .string _ => 1
  | .array xs => 1 + costElems xs
  | .object kvs => 1 + costMembers kvs
def costElems : List JSONValue → Nat
  | [] => 0
  | x :: xs => 1 + cost x + costElems xs
def costMembers : List (String × JSONValue) → Nat
  | [] => 0
  | kv :: rest => 1 + cost kv.2 + costMembers rest
end

/-- One step of the loop of `setHeader`. -/
def headerStep (r : Request) (kv : String × String) : Request :=
  if kv.1 = "Authorization" then r.SetAuthToken kv.2 else r.SetHeader kv.1 kv.2


/-! ## Lemmas on the stores -/

theorem setFormData_cons (r : Request) (kv : String × String) (t : List (String × String)) :
    r.SetFormData (kv :: t) =
      Request.SetFormData { r with FormData := r.FormData.Set kv.1 kv.2 } t := rfl

theorem setFormData_header (d : List (String × String)) (r : Request) :
    (r.SetFormData d).Header = r.Header := by
  induction d generalizing r with
  | nil => rfl
  | cons kv t ih => rw [setFormData_cons, ih]

theorem setFormData_token (d : List (String × String)) (r : Request) :
    (r.SetFormData d).Token = r.Token := by
  induction d generalizing r with
  | nil => rfl
  | cons kv t ih => rw [setFormData_cons, ih]

theorem values_set_absent (v : Values) (k x : String) (h : k ∉ v.map Prod.fst) :
    Values.Set v k x = v ++ [(k, [x])] := by
  unfold Values.Set
  have : v.any (fun e => e.1 == k) = false := by
    rw [Bool.eq_false_iff]
    intro hany
    rw [List.any_eq_true] at hany
    obtain ⟨e, he, hek⟩ := hany
    apply h
    rw [← beq_iff_eq.1 hek]
    exact List.mem_map.2 ⟨e, he, rfl⟩
  simp [this]

theorem values_set_length (v : Values) (k x : String) :
    0 < (Values.Set v k x).length ∧ v.length ≤ (Values.Set v k x).length := by
  unfold Values.Set
  by_cases h : v.any (fun e => e.1 == k) = true
  · simp only [h, if_true, List.length_map, le_refl, and_true]
    rw [List.any_eq_true] at h
    obtain ⟨e, he, _⟩ := h
    exact List.length_pos_of_mem he
  · simp [h]

theorem lookup_cons_self (k : String) (y : List String) (t : Values) :
    List.lookup k ((k, y) :: t) = some y := by
  simp [List.lookup]

theorem lookup_cons_ne (k a : String) (y : List String) (t : Values) (h : k ≠ a) :
    List.lookup k ((a, y) :: t) = List.lookup k t := by
  have hb : (k == a) = false := by simpa using h
  simp [List.lookup, hb]

theorem lookup_append_single (v : Values) (k k' : String) (x : List String) :
    List.lookup k (v ++ [(k', x)]) =
      match List.lookup k v with
      | some y => some y
      | none => if k = k' then some x else none := by
  induction v with
  | nil =>
    by_cases h : k = k'
    · subst h; simp [lookup_cons_self]
    · rw [List.nil_append, lookup_cons_ne _ _ _ _ h]; simp [h]
  | cons e t ih =>
    obtain ⟨a, y⟩ := e
    by_cases h : k = a
    · subst h; simp [lookup_cons_self]
    · rw [List.cons_append, lookup_cons_ne _ _ _ _ h, lookup_cons_ne _ _ _ _ h, ih]

theorem lookup_map_set (v : Values) (k k' x : String) :
    List.lookup k (v.map (fun e => if e.1 = k' then (k', [x]) else e)) =
      if k = k' then (List.lookup k v).map (fun _ => [x]) else List.lookup k v := by
  induction v with
  | nil => simp
  | cons e t ih =>
    obtain ⟨a, y⟩ := e
    by_cases he : a = k'
    · subst he
      simp only [List.map_cons, if_true]
      by_cases h : k = a
      · subst h; simp [lookup_cons_self]
      · rw [lookup_cons_ne _ _ _ _ h, lookup_cons_ne _ _ _ _ h, ih]
    · simp only [List.map_cons, he, if_false]
      by_cases h : k = a
      · subst h
        simp [lookup_cons_self, he]
      · rw [lookup_cons_ne _ _ _ _ h, lookup_cons_ne _ _ _ _ h, ih]

theorem lookup_none_of_not_mem (v : Values) (k : String) (h : k ∉ v.map Prod.fst) :
    List.lookup k v = none := by
  induction v with
  | nil => rfl
  | cons e t ih =>
    obtain ⟨a, y⟩ := e
    simp only [List.map_cons, List.mem_cons, not_or] at h
    rw [lookup_cons_ne _ _ _ _ h.1]
    exact ih h.2

theorem lookup_some_of_any (v : Values) (k : String)
    (h : v.any (fun e => e.1 == k) = true) : ∃ y, List.lookup k v = some y := by
  induction v with
  | nil => simp at h
  | cons e t ih =>
    obtain ⟨a, y⟩ := e
    by_cases hk : k = a
    · subst hk; exact ⟨y, lookup_cons_self _ _ _⟩
    · have hb' : (a == k) = false := by simpa using fun h' => hk h'.symm
      simp only [List.any_cons, hb', Bool.false_or] at h
      obtain ⟨z, hz⟩ := ih h
      exact ⟨z, by rw [lookup_cons_ne _ _ _ _ hk, hz]⟩

theorem lookup_values_set (v : Values) (k k' x : String) :
    List.lookup k (Values.Set v k' x) = if k = k' then some [x] else List.lookup k v := by
  unfold Values.Set
  by_cases h : v.any (fun e => e.1 == k') = true
  · simp only [h, if_true, lookup_map_set]
    by_cases hk : k = k'
    · obtain ⟨y, hy⟩ := lookup_some_of_any v k' h
      simp [hk, hy]
    · simp [hk]
  · have hf : v.any (fun e => e.1 == k') = false := Bool.eq_false_iff.2 h
    simp only [hf, Bool.false_eq_true, if_false]
    rw [lookup_append_single]
    by_cases hk : k = k'
    · have hn : List.lookup k v = none := by
        apply lookup_none_of_not_mem
        intro hm
        apply h
        rw [List.any_eq_true]
        obtain ⟨e, he, hek⟩ := List.mem_map.1 hm
        exact ⟨e, he, by simp [hek, hk]⟩
      subst hk
      rw [hn]
    · cases hl : List.lookup k v with
      | none => simp [hk]
      | some y => simp [hk]

theorem setFormData_other (d : List (String × String)) (r : Request) (k : String)
    (hk : k ∉ d.map Prod.fst) :
    List.lookup k (r.SetFormData d).FormData = List.lookup k r.FormData := by
  induction d generalizing r with
  | nil => rfl
  | cons kv t ih =>
    simp only [List.map_cons, List.mem_cons, not_or] at hk
    rw [setFormData_cons, ih _ hk.2]
    simp [lookup_values_set, hk.1]

theorem setFormData_mem (d : List (String × String)) (r : Request) (k v : String)
    (hnd : (d.map Prod.fst).Nodup) (hkv : (k, v) ∈ d) :
    List.lookup k (r.SetFormData d).FormData = some [v] := by
  induction d generalizing r with
  | nil => simp at hkv
  | cons kv t ih =>
    simp only [List.map_cons, List.nodup_cons] at hnd
    rw [setFormData_cons]
    rcases List.mem_cons.1 hkv with h | h
    · subst h
      rw [setFormData_other _ _ _ hnd.1]
      simp [lookup_values_set]
    · exact ih _ hnd.2 h

theorem setFormData_append (d : List (String × String)) (r : Request)
    (hnd : ((r.FormData.map Prod.fst) ++ d.map Prod.fst).Nodup) :
    (r.SetFormData d).FormData = r.FormData ++ d.map (fun kv => (kv.1, [kv.2])) := by
  induction d generalizing r with
  | nil => simp [Request.SetFormData]
  | cons kv t ih =>
    have hfresh : kv.1 ∉ r.FormData.map Prod.fst := by
      intro hm
      have := (List.nodup_append.1 hnd).2.2
      exact this hm (by simp)
    rw [setFormData_cons, ih]
    · simp [values_set_absent _ _ _ hfresh]
    · simp only [values_set_absent _ _ _ hfresh, List.map_append, List.map_cons, List.map_nil,
        List.append_assoc, List.singleton_append]
      simpa using hnd

theorem setFormData_length (d : List (String × String)) (r : Request) :
    r.FormData.length ≤ (r.SetFormData d).FormData.length ∧
      (d ≠ [] → 0 < (r.SetFormData d).FormData.length) := by
  induction d generalizing r with
  | nil => simp [Request.SetFormData]
  | cons kv t ih =>
    rw [setFormData_cons]
    have h1 := values_set_length r.FormData kv.1 kv.2
    have h2 := (ih { r with FormData := r.FormData.Set kv.1 kv.2 }).1
    simp only at h2
    exact ⟨by omega, fun _ => by omega⟩

theorem nodup_keys_unique {α : Type} (l : List (String × α)) (hnd : (l.map Prod.fst).Nodup)
    (k : String) (v w : α) (hv : (k, v) ∈ l) (hw : (k, w) ∈ l) : v = w := by
  induction l with
  | nil => simp at hv
  | cons kv t ih =>
    simp only [List.map_cons, List.nodup_cons] at hnd
    rcases List.mem_cons.1 hv with h1 | h1 <;> rcases List.mem_cons.1 hw with h2 | h2
    · rw [← h2] at h1; exact (Prod.mk.inj h1).2
    · exfalso; apply hnd.1; rw [← h1]; exact List.mem_map.2 ⟨(k, w), h2, rfl⟩
    · exfalso; apply hnd.1; rw [← h2]; exact List.mem_map.2 ⟨(k, v), h1, rfl⟩
    · exact ih hnd.2 h1 h2

theorem setHeader_eq (c : Client) (req : Request) (H : Option (List (String × String))) :
    c.setHeader req H =
      (mapEntries H).foldl headerStep
        ((req.SetHeader "Content-Type" "application/json").SetHeader "Accept"
          "application/json") := by
  unfold Client.setHeader mapEntries
  cases H with
  | none => rfl
  | some h =>
    cases h with
    | nil => rfl
    | cons kv t =>
      simp only [List.length_cons, gt_iff_lt, Nat.zero_lt_succ, if_true]
      rfl

theorem fold_header_keep (l : List (String × String)) (r : Request) (k : String)
    (h : ∀ kv ∈ l, kv.1 ≠ "Authorization" → CanonicalMIMEHeaderKey kv.1 ≠ k) :
    (l.foldl headerStep r).Header k = r.Header k := by
  induction l generalizing r with
  | nil => rfl
  | cons kv t ih =>
    rw [List.foldl_cons, ih _ (fun x hx => h x (List.mem_cons_of_mem _ hx))]
    unfold headerStep
    by_cases ha : kv.1 = "Authorization"
    · simp [ha, Request.SetAuthToken]
    · have := h kv (List.mem_cons_self _ _) ha
      simp [ha, Request.SetHeader, Header.Set, Ne.symm this]

theorem fold_header_last (V k : String) (l : List (String × String)) (r : Request)
    (hval : ∀ kv ∈ l, kv.1 ≠ "Authorization" → CanonicalMIMEHeaderKey kv.1 = k → kv.2 = V)
    (hex : (∃ kv ∈ l, kv.1 ≠ "Authorization" ∧ CanonicalMIMEHeaderKey kv.1 = k) ∨
      r.Header k = some [V]) :
    (l.foldl headerStep r).Header k = some [V] := by
  induction l generalizing r with
  | nil =>
    rcases hex with ⟨kv, hkv, _⟩ | h
    · simp at hkv
    · exact h
  | cons kv t ih =>
    rw [List.foldl_cons]
    apply ih _ (fun x hx => hval x (List.mem_cons_of_mem _ hx))
    by_cases hin : ∃ x ∈ t, x.1 ≠ "Authorization" ∧ CanonicalMIMEHeaderKey x.1 = k
    · exact Or.inl hin
    · right
      unfold headerStep
      by_cases ha : kv.1 = "Authorization"
      · simp only [ha, if_true, Request.SetAuthToken]
        rcases hex with ⟨x, hx, hx1, hx2⟩ | h
        · rcases List.mem_cons.1 hx with e | e
          · subst e; exact absurd ha hx1
          · exact absurd ⟨x, e, hx1, hx2⟩ hin
        · exact h
      · by_cases hc : CanonicalMIMEHeaderKey kv.1 = k
        · have := hval kv (List.mem_cons_self _ _) ha hc
          simp [ha, Request.SetHeader, Header.Set, hc, this]
        · simp only [ha, if_false, Request.SetHeader, Header.Set, Ne.symm hc]
          rcases hex with ⟨x, hx, hx1, hx2⟩ | h
          · rcases List.mem_cons.1 hx with e | e
            · subst e; exact absurd hx2 hc
            · exact absurd ⟨x, e, hx1, hx2⟩ hin
          · exact h

theorem fold_token_keep (l : List (String × String)) (r : Request)
    (h : ∀ kv ∈ l, kv.1 ≠ "Authorization") : (l.foldl headerStep r).Token = r.Token := by
  induction l generalizing r with
  | nil => rfl
  | cons kv t ih =>
    rw [List.foldl_cons, ih _ (fun x hx => h x (List.mem_cons_of_mem _ hx))]
    simp [headerStep, h kv (List.mem_cons_self _ _), Request.SetHeader]

theorem fold_token_set (tok : String) (l : List (String × String)) (r : Request)
    (hval : ∀ kv ∈ l, kv.1 = "Authorization" → kv.2 = tok)
    (hex : (∃ kv ∈ l, kv.1 = "Authorization") ∨ r.Token = tok) :
    (l.foldl headerStep r).Token = tok := by
  induction l generalizing r with
  | nil =>
    rcases hex with ⟨kv, hkv, _⟩ | h
    · simp at hkv
    · exact h
  | cons kv t ih =>
    rw [List.foldl_cons]
    apply ih _ (fun x hx => hval x (List.mem_cons_of_mem _ hx))
    by_cases hin : ∃ x ∈ t, x.1 = "Authorization"
    · exact Or.inl hin
    · right
      unfold headerStep
      by_cases ha : kv.1 = "Authorization"
      · simp [ha, Request.SetAuthToken, hval kv (List.mem_cons_self _ _) ha]
      · simp only [ha, if_false, Request.SetHeader]
        rcases hex with ⟨x, hx, hx1⟩ | h
        · rcases List.mem_cons.1 hx with e | e
          · subst e; exact absurd hx1 ha
          · exact absurd ⟨x, e, hx1⟩ hin
        · exact h

theorem fold_header_congr (m : List (String × String)) (a b : Request)
    (h : a.Header = b.Header) :
    (m.foldl headerStep a).Header = (m.foldl headerStep b).Header := by
  induction m generalizing a b with
  | nil => exact h
  | cons x m ihm =>
    rw [List.foldl_cons, List.foldl_cons]
    apply ihm
    unfold headerStep
    by_cases hx : x.1 = "Authorization"
    · simp [hx, Request.SetAuthToken, h]
    · simp [hx, Request.SetHeader, h]

theorem fold_header_filter (l : List (String × String)) (r : Request) :
    (l.foldl headerStep r).Header =
      ((l.filter (fun kv => decide (kv.1 ≠ "Authorization"))).foldl headerStep r).Header := by
  induction l generalizing r with
  | nil => rfl
  | cons kv t ih =>
    by_cases ha : kv.1 = "Authorization"
    · have hf : (kv :: t).filter (fun kv => decide (kv.1 ≠ "Authorization")) =
          t.filter (fun kv => decide (kv.1 ≠ "Authorization")) := by
        simp [List.filter_cons, ha]
      rw [hf, List.foldl_cons, ih]
      apply fold_header_congr
      simp [headerStep, ha, Request.SetAuthToken]
    · have hf : (kv :: t).filter (fun kv => decide (kv.1 ≠ "Authorization")) =
          kv :: t.filter (fun kv => decide (kv.1 ≠ "Authorization")) := by
        simp [List.filter_cons, ha]
      rw [hf, List.foldl_cons, List.foldl_cons, ih]


/-! ## Headers of the dispatched request -/

theorem initRequest_eq (c : Client) (H : Option (List (String × String))) :
    c.initRequest H =
      (mapEntries H).foldl headerStep
        ((c.GetRestyClient.R.SetHeader "Content-Type" "application/json").SetHeader "Accept"
          "application/json") := by
  unfold Client.initRequest
  exact setHeader_eq c _ H

theorem initRequest_defaults (c : Client) (H : Option (List (String × String)))
    (hH : ∀ kv ∈ mapEntries H, CanonicalMIMEHeaderKey kv.1 ≠ "Content-Type" ∧
      CanonicalMIMEHeaderKey kv.1 ≠ "Accept") :
    HasJSONDefaults (c.initRequest H) := by
  rw [initRequest_eq]
  constructor
  · rw [fold_header_keep _ _ _ (fun kv hkv _ => (hH kv hkv).1)]
    have h : CanonicalMIMEHeaderKey "Content-Type" = "Content-Type" := by decide
    have h' : CanonicalMIMEHeaderKey "Accept" = "Accept" := by decide
    simp [Request.SetHeader, Header.Set, h, h']
  · rw [fold_header_keep _ _ _ (fun kv hkv _ => (hH kv hkv).2)]
    have h' : CanonicalMIMEHeaderKey "Accept" = "Accept" := by decide
    simp [Request.SetHeader, Header.Set, h']

theorem hasJSONDefaults_of_header (r s : Request) (h : s.Header = r.Header)
    (hr : HasJSONDefaults r) : HasJSONDefaults s := by
  unfold HasJSONDefaults at *
  rw [h]
  exact hr

theorem withBody_header (r : Request) (d : Any) :
    (if d ≠ Any.nil then r.SetBody d else r).Header = r.Header := by
  by_cases h : d = Any.nil <;> simp [h, Request.SetBody]

theorem withBody_formData (r : Request) (d : Any) :
    (if d ≠ Any.nil then r.SetBody d else r).FormData = r.FormData := by
  by_cases h : d = Any.nil <;> simp [h, Request.SetBody]

theorem surface_eq (o : Outcome) :
    (match o with
      | (_, some err) => ((none : Option Response), some err)
      | (resp, none) => (resp, none)) = surface o := by
  rcases o with ⟨r, _ | e⟩ <;> rfl

theorem initRequest_formData (c : Client) (H : Option (List (String × String))) :
    (c.initRequest H).FormData = [] := by
  rw [initRequest_eq]
  have key : ∀ (l : List (String × String)) (r : Request),
      (l.foldl headerStep r).FormData = r.FormData := by
    intro l
    induction l with
    | nil => intro r; rfl
    | cons kv t ih =>
      intro r
      rw [List.foldl_cons, ih]
      unfold headerStep
      by_cases h : kv.1 = "Authorization" <;>
        simp [h, Request.SetAuthToken, Request.SetHeader]
  rw [key]
  rfl

/-- Without form data the middleware leaves the request as it is. -/
theorem parseRequestBody_noForm (m : String) (r : Request) (h : r.FormData = []) :
    parseRequestBody m r = r := by
  simp [parseRequestBody, h]

/-- With form data on a method with a payload the middleware sets the form
content type and leaves the other headers and the form data. -/
theorem parseRequestBody_form (m : String) (r : Request) (hm : isPayloadSupported m = true)
    (h : 0 < r.FormData.length) (hr : HasJSONDefaults r) :
    HasFormType (parseRequestBody m r) ∧ ¬ HasJSONDefaults (parseRequestBody m r) ∧
      (parseRequestBody m r).FormData = r.FormData := by
  have hc : CanonicalMIMEHeaderKey "Content-Type" = "Content-Type" := by decide
  have hne : ("Accept" : String) ≠ "Content-Type" := by decide
  have hty : formContentType ≠ "application/json" := by decide
  have e : parseRequestBody m r = r.SetHeader "Content-Type" formContentType := by
    simp [parseRequestBody, hm, h]
  rw [e]
  refine ⟨⟨?_, ?_⟩, ?_, rfl⟩
  · simp [Request.SetHeader, Header.Set, hc]
  · simp only [Request.SetHeader, Header.Set, hc, hne, if_false]
    exact hr.2
  · intro hj
    have := hj.1
    simp only [Request.SetHeader, Header.Set, hc, if_true] at this
    simp only [Option.some.injEq, List.cons.injEq, and_true] at this
    exact hty this

/-- C1, as amended: when no key of the caller's map has the canonical form
`Content-Type` or `Accept`, the request that every verb dispatches carries both
JSON default headers, except that `Post` and `Put` with a non-empty form-data
map dispatch the content type of a form, `application/x-www-form-urlencoded`,
beside the JSON default of `Accept`. -/
theorem C1_json_defaults (c : Client) (url : String) (H : Option (List (String × String)))
    (hH : ∀ kv ∈ mapEntries H, CanonicalMIMEHeaderKey kv.1 ≠ "Content-Type" ∧
      CanonicalMIMEHeaderKey kv.1 ≠ "Accept") :
    (∃ r, HasJSONDefaults r ∧ ∀ T, c.Get T url H = surface (T MethodGet url r)) ∧
    (∀ d, mapEntries d = [] →
      ∃ r, HasJSONDefaults r ∧ ∀ T, c.Post T url H d = surface (T MethodPost url r)) ∧
    (∀ d, mapEntries d ≠ [] →
      ∃ r, (HasFormType r ∧ ¬ HasJSONDefaults r) ∧
        ∀ T, c.Post T url H d = surface (T MethodPost url r)) ∧
    (∀ d, ∃ r, HasJSONDefaults r ∧ ∀ T, c.PostWithRawData T url H d = T MethodPost url r) ∧
    (∀ d, mapEntries d = [] →
      ∃ r, HasJSONDefaults r ∧ ∀ T, c.Put T url H d = surface (T MethodPut url r)) ∧
    (∀ d, mapEntries d ≠ [] →
      ∃ r, (HasFormType r ∧ ¬ HasJSONDefaults r) ∧
        ∀ T, c.Put T url H d = surface (T MethodPut url r)) ∧
    (∀ d, ∃ r, HasJSONDefaults r ∧ ∀ T, c.PatchWithRawData T url H d = T MethodPost url r) ∧
    (∃ r, HasJSONDefaults r ∧ ∀ T, c.Delete T url H = T MethodDelete url r) ∧
    (∀ d, ∃ r, HasJSONDefaults r ∧
      ∀ T, c.DeleteWithRawData T url H d = T MethodDelete url r) ∧
    (∃ r, HasJSONDefaults r ∧ ∀ T, c.Head T url H = T MethodHead url r) := by
  have h0 := initRequest_defaults c H hH
  have hf := initRequest_formData c H
  have plain : ∀ m, HasJSONDefaults (parseRequestBody m (c.initRequest H)) := by
    intro m
    rw [parseRequestBody_noForm m _ hf]
    exact h0
  have raw : ∀ m d, HasJSONDefaults
      (parseRequestBody m (if d ≠ Any.nil then (c.initRequest H).SetBody d
        else c.initRequest H)) := by
    intro m d
    rw [parseRequestBody_noForm m _ (by rw [withBody_formData]; exact hf)]
    exact hasJSONDefaults_of_header _ _ (withBody_header _ d) h0
  have empty : ∀ m (d : Option (List (String × String))), mapEntries d = [] →
      HasJSONDefaults (parseRequestBody m
        (match d with
          | some d => (c.initRequest H).SetFormData (ToStringMapString (.mapStringString d))
          | none => c.initRequest H)) := by
    intro m d hd
    cases d with
    | none => exact plain m
    | some d =>
      have hd' : d = [] := hd
      subst hd'
      exact plain m
  have form : ∀ m (d : Option (List (String × String))), isPayloadSupported m = true →
      mapEntries d ≠ [] →
      (HasFormType (parseRequestBody m
        (match d with
          | some d => (c.initRequest H).SetFormData (ToStringMapString (.mapStringString d))
          | none => c.initRequest H)) ∧
        ¬ HasJSONDefaults (parseRequestBody m
        (match d with
          | some d => (c.initRequest H).SetFormData (ToStringMapString (.mapStringString d))
          | none => c.initRequest H))) := by
    intro m d hm hd
    cases d with
    | none => exact absurd rfl hd
    | some d =>
      have hd' : d ≠ [] := hd
      have hlen := (setFormData_length (ToStringMapString (.mapStringString d))
        (c.initRequest H)).2 hd'
      have hdef := hasJSONDefaults_of_header _ _
        (setFormData_header (ToStringMapString (.mapStringString d)) (c.initRequest H)) h0
      have := parseRequestBody_form m _ hm hlen hdef
      exact ⟨this.1, this.2.1⟩
  exact ⟨⟨_, plain MethodGet, fun T => surface_eq _⟩,
    fun d hd => ⟨_, empty MethodPost d hd, fun T => surface_eq _⟩,
    fun d hd => ⟨_, form MethodPost d (by decide) hd, fun T => surface_eq _⟩,
    fun d => ⟨_, raw MethodPost d, fun T => rfl⟩,
    fun d hd => ⟨_, empty MethodPut d hd, fun T => surface_eq _⟩,
    fun d hd => ⟨_, form MethodPut d (by decide) hd, fun T => surface_eq _⟩,
    fun d => ⟨_, raw MethodPost d, fun T => rfl⟩,
    ⟨_, plain MethodDelete, fun T => rfl⟩,
    fun d => ⟨_, raw MethodDelete d, fun T => rfl⟩,
    ⟨_, plain MethodHead, fun T => rfl⟩⟩

theorem C1_json_defaults_witness :
    (∃ r, HasJSONDefaults r ∧
      ∀ T, (New "https://api.example/" false).PostWithRawData T "/login"
        (some [("Authorization", "tok"), ("X-Trace", "1")]) (Any.str "body") =
          T MethodPost "/login" r) ∧
    (∃ r, (HasFormType r ∧ ¬ HasJSONDefaults r) ∧
      ∀ T, (New "https://api.example/" false).Post T "/login"
        (some [("Authorization", "tok"), ("X-Trace", "1")]) (some [("u", "a"), ("p", "b")]) =
          surface (T MethodPost "/login" r)) :=
  ⟨(C1_json_defaults (New "https://api.example/" false) "/login"
    (some [("Authorization", "tok"), ("X-Trace", "1")]) (by decide)).2.2.2.1 (Any.str "body"),
   (C1_json_defaults (New "https://api.example/" false) "/login"
    (some [("Authorization", "tok"), ("X-Trace", "1")]) (by decide)).2.2.1
      (some [("u", "a"), ("p", "b")]) (by decide)⟩

/-- C1 as stated fails twice.  A map with the single key `content-type` holds
neither the key `Content-Type` nor the key `Accept`, yet the request that `Get`
dispatches carries `Content-Type: text/plain`.  And with no caller header at
all, the request that `Post` dispatches for the form data `u = a` carries
`Content-Type: application/x-www-form-urlencoded`. -/
theorem C1_counterexample :
    ((∀ kv ∈ mapEntries (some [("content-type", "text/plain")]),
        kv.1 ≠ "Content-Type" ∧ kv.1 ≠ "Accept") ∧
      (∀ T, (New "" false).Get T "/ping" (some [("content-type", "text/plain")]) =
        surface (T MethodGet "/ping"
          (parseRequestBody MethodGet
            ((New "" false).initRequest (some [("content-type", "text/plain")]))))) ∧
      (parseRequestBody MethodGet
        ((New "" false).initRequest (some [("content-type", "text/plain")]))).Header
          "Content-Type" = some ["text/plain"] ∧
      ¬ HasJSONDefaults (parseRequestBody MethodGet
        ((New "" false).initRequest (some [("content-type", "text/plain")])))) ∧
    ((∀ T, (New "" false).Post T "/login" none (some [("u", "a")]) =
        surface (T MethodPost "/login"
          (parseRequestBody MethodPost
            (((New "" false).initRequest none).SetFormData [("u", "a")])))) ∧
      (parseRequestBody MethodPost
        (((New "" false).initRequest none).SetFormData [("u", "a")])).Header
          "Content-Type" = some ["application/x-www-form-urlencoded"] ∧
      ¬ HasJSONDefaults (parseRequestBody MethodPost
        (((New "" false).initRequest none).SetFormData [("u", "a")]))) := by
  refine ⟨⟨by decide, fun T => surface_eq _, by decide, ?_⟩,
    ⟨fun T => surface_eq _, by decide, ?_⟩⟩
  · intro h
    exact absurd h.1 (by decide)
  · intro h
    exact absurd h.1 (by decide)

/-- C2, as amended: a key `K` other than `Authorization` whose canonical form
no other header key of the map shares is read back with the caller's value,
in every order of iteration; the value is filed under the canonical form of
`K`, defaults included. -/
theorem C2_caller_header_wins (c : Client) (req : Request) (H : List (String × String))
    (K V : String) (hnd : (H.map Prod.fst).Nodup) (hmem : (K, V) ∈ H)
    (hK : K ≠ "Authorization")
    (hcol : ∀ kv ∈ H, kv.1 ≠ K → kv.1 ≠ "Authorization" →
      CanonicalMIMEHeaderKey kv.1 ≠ CanonicalMIMEHeaderKey K)
    (H' : List (String × String)) (hperm : H'.Perm H) :
    (c.setHeader req (some H')).Header (CanonicalMIMEHeaderKey K) = some [V] ∧
      (c.setHeader req (some H')).Header.Get K = V := by
  have key : (c.setHeader req (some H')).Header (CanonicalMIMEHeaderKey K) = some [V] := by
    rw [setHeader_eq]
    apply fold_header_last
    · intro kv hkv ha hc
      have hkv' : kv ∈ H := hperm.mem_iff.1 hkv
      by_cases hk : kv.1 = K
      · have : (K, kv.2) ∈ H := by rw [← hk]; exact hkv'
        exact nodup_keys_unique H hnd K _ _ this hmem
      · exact absurd hc (hcol kv hkv' hk ha)
    · left
      exact ⟨(K, V), hperm.mem_iff.2 hmem, hK, rfl⟩
  refine ⟨key, ?_⟩
  unfold Header.Get
  rw [key]

theorem C2_caller_header_wins_witness :
    ((New "" false).setHeader (New "" false).GetRestyClient.R
        (some [("Authorization", "tok"), ("content-type", "text/xml")])).Header
          (CanonicalMIMEHeaderKey "content-type") = some ["text/xml"] ∧
      ((New "" false).setHeader (New "" false).GetRestyClient.R
        (some [("Authorization", "tok"), ("content-type", "text/xml")])).Header.Get
          "content-type" = "text/xml" :=
  C2_caller_header_wins (New "" false) (New "" false).GetRestyClient.R
    [("content-type", "text/xml"), ("Authorization", "tok")] "content-type" "text/xml"
    (by decide) (by decide) (by decide) (by decide)
    [("Authorization", "tok"), ("content-type", "text/xml")] (List.Perm.swap _ _ _)

/-- C2 as stated fails: in the map with the keys `x-trace` and `X-Trace`, both
other than `Authorization`, the header read back for `x-trace` is the value
given for `X-Trace` when that entry is iterated last. -/
theorem C2_counterexample :
    ([("x-trace", "a"), ("X-Trace", "b")].map Prod.fst).Nodup ∧
    (("x-trace", "a") ∈ [("x-trace", "a"), ("X-Trace", "b")] ∧ "x-trace" ≠ "Authorization") ∧
    ((New "" false).setHeader (New "" false).GetRestyClient.R
      (some [("x-trace", "a"), ("X-Trace", "b")])).Header.Get "x-trace" = "b" ∧
    ((New "" false).setHeader (New "" false).GetRestyClient.R
      (some [("x-trace", "a"), ("X-Trace", "b")])).Header "x-trace" = none ∧
    ((New "" false).setHeader (New "" false).GetRestyClient.R
      (some [("x-trace", "a"), ("X-Trace", "b")])).Header "X-Trace" = some ["b"] := by
  decide


/-! ## Decimal numerals -/

theorem digitChar_toNat : ∀ k, k < 10 → (Nat.digitChar k).toNat = 48 + k := by
  decide

theorem digitChar_isDigit (k : Nat) (h : k < 10) : isDigit (Nat.digitChar k) = true := by
  have := digitChar_toNat k h
  simp only [isDigit, this, Bool.and_eq_true, decide_eq_true_eq]
  omega

theorem digitsValue_append_single (l : List Char) (c : Char) :
    digitsValue (l ++ [c]) = digitsValue l * 10 + (c.toNat - 48) := by
  simp [digitsValue, List.foldl_append]

/-- What the loop of `Nat.toDigits` yields: a numeral put before the digits
already there. -/
theorem toDigitsCore_spec (fuel : Nat) :
    ∀ n, n < fuel → ∃ l : List Char,
      (∀ ds, Nat.toDigitsCore 10 fuel n ds = l ++ ds) ∧ l ≠ [] ∧
      (∀ c ∈ l, isDigit c = true) ∧ digitsValue l = n ∧
      (∀ t, l = '0' :: t → n = 0 ∧ t = []) := by
  induction fuel with
  | zero => intro n h; omega
  | succ fuel ih =>
    intro n hn
    by_cases hq : n / 10 = 0
    · refine ⟨[Nat.digitChar (n % 10)], ?_, by simp, ?_, ?_, ?_⟩
      · intro ds
        simp [Nat.toDigitsCore, hq]
      · intro c hc
        simp only [List.mem_singleton] at hc
        subst hc
        exact digitChar_isDigit _ (Nat.mod_lt _ (by decide))
      · have := digitChar_toNat (n % 10) (Nat.mod_lt _ (by decide))
        simp only [digitsValue, List.foldl_cons, List.foldl_nil, this]
        omega
      · intro t ht
        simp only [List.cons.injEq] at ht
        have h1 := digitChar_toNat (n % 10) (Nat.mod_lt _ (by decide))
        rw [ht.1] at h1
        have h2 : ('0' : Char).toNat = 48 := by decide
        exact ⟨by omega, ht.2.symm⟩
    · have hlt : n / 10 < fuel := by omega
      obtain ⟨l, h1, h2, h3, h4, h5⟩ := ih (n / 10) hlt
      refine ⟨l ++ [Nat.digitChar (n % 10)], ?_, by simp, ?_, ?_, ?_⟩
      · intro ds
        simp [Nat.toDigitsCore, hq, h1]
      · intro c hc
        rcases List.mem_append.1 hc with h | h
        · exact h3 c h
        · simp only [List.mem_singleton] at h
          subst h
          exact digitChar_isDigit _ (Nat.mod_lt _ (by decide))
      · have := digitChar_toNat (n % 10) (Nat.mod_lt _ (by decide))
        rw [digitsValue_append_single, h4, this]
        omega
      · intro t ht
        cases l with
        | nil => exact absurd rfl h2
        | cons a l' =>
          simp only [List.cons_append, List.cons.injEq] at ht
          have := (h5 l' (by rw [ht.1])).1
          exact absurd this hq

/-- The decimal numeral of a natural number: digits only, at least one, no
leading zero but for 0 itself, and the number is its value. -/
theorem toDigits_spec (n : Nat) :
    Nat.toDigits 10 n ≠ [] ∧ (∀ c ∈ Nat.toDigits 10 n, isDigit c = true) ∧
      digitsValue (Nat.toDigits 10 n) = n ∧
      (∀ t, Nat.toDigits 10 n = '0' :: t → n = 0 ∧ t = []) := by
  obtain ⟨l, h1, h2, h3, h4, h5⟩ := toDigitsCore_spec (n + 1) n (Nat.lt_succ_self n)
  have e : Nat.toDigits 10 n = l := by
    unfold Nat.toDigits
    rw [h1 []]
    simp
  rw [e]
  exact ⟨h2, h3, h4, h5⟩

/-- The text of an integer as `strconv` writes it. -/
theorem toString_int_nat (n : Nat) : (toString (n : Int)).data = Nat.toDigits 10 n := by
  rfl

theorem toString_int_neg (n : Nat) :
    (toString (Int.negSucc n)).data = '-' :: Nat.toDigits 10 (n + 1) := by
  rfl


/-! ## The bearer token -/

theorem defaults_header_other (r : Request) (k : String) (h1 : k ≠ "Content-Type")
    (h2 : k ≠ "Accept") :
    ((r.SetHeader "Content-Type" "application/json").SetHeader "Accept"
      "application/json").Header k = r.Header k := by
  have h : CanonicalMIMEHeaderKey "Content-Type" = "Content-Type" := by decide
  have h' : CanonicalMIMEHeaderKey "Accept" = "Accept" := by decide
  simp [Request.SetHeader, Header.Set, h, h', h1, h2]

/-- C3, as amended: `setHeader` sets the token exactly from the entry whose key
is `Authorization` and leaves it untouched without one; that entry writes no
header, so a literal `Authorization` header is written only for another key
whose canonical form is `Authorization`, such as `authorization`, which is
filed as an ordinary header and does not touch the token. -/
theorem C3_authorization_token (c : Client) (req : Request)
    (H : Option (List (String × String))) (hnd : ((mapEntries H).map Prod.fst).Nodup) :
    (∀ tok, ("Authorization", tok) ∈ mapEntries H → (c.setHeader req H).Token = tok) ∧
    ((∀ kv ∈ mapEntries H, kv.1 ≠ "Authorization") →
      (c.setHeader req H).Token = req.Token) ∧
    ((c.setHeader req H).Header =
      (c.setHeader req (some ((mapEntries H).filter
        (fun kv => decide (kv.1 ≠ "Authorization"))))).Header) ∧
    ((∀ kv ∈ mapEntries H, kv.1 ≠ "Authorization" →
        CanonicalMIMEHeaderKey kv.1 ≠ "Authorization") →
      (c.setHeader req H).Header "Authorization" = req.Header "Authorization") ∧
    (∀ v, ("authorization", v) ∈ mapEntries H →
      (∀ kv ∈ mapEntries H, kv.1 ≠ "authorization" → kv.1 ≠ "Authorization" →
        CanonicalMIMEHeaderKey kv.1 ≠ "Authorization") →
      (c.setHeader req H).Header "Authorization" = some [v]) := by
  refine ⟨?_, ?_, ?_, ?_, ?_⟩
  · intro tok hmem
    rw [setHeader_eq]
    apply fold_token_set
    · intro kv hkv ha
      have : ("Authorization", kv.2) ∈ mapEntries H := by rw [← ha]; exact hkv
      exact nodup_keys_unique _ hnd _ _ _ this hmem
    · exact Or.inl ⟨_, hmem, rfl⟩
  · intro h
    rw [setHeader_eq, fold_token_keep _ _ h]
    rfl
  · rw [setHeader_eq, setHeader_eq, fold_header_filter]
    rfl
  · intro h
    rw [setHeader_eq, fold_header_keep _ _ _ h]
    exact defaults_header_other req _ (by decide) (by decide)
  · intro v hmem h
    rw [setHeader_eq]
    apply fold_header_last
    · intro kv hkv ha hc
      by_cases hk : kv.1 = "authorization"
      · have : ("authorization", kv.2) ∈ mapEntries H := by rw [← hk]; exact hkv
        exact nodup_keys_unique _ hnd _ _ _ this hmem
      · exact absurd hc (h kv hkv hk ha)
    · have h1 : ("authorization" : String) ≠ "Authorization" := by decide
      have h2 : CanonicalMIMEHeaderKey "authorization" = "Authorization" := by decide
      exact Or.inl ⟨("authorization", v), hmem, h1, h2⟩

theorem C3_authorization_token_witness :
    ((New "" false).setHeader (New "" false).GetRestyClient.R
      (some [("Authorization", "Xyz"), ("X-Trace", "1")])).Token = "Xyz" ∧
    ((New "" false).setHeader (New "" false).GetRestyClient.R
      (some [("Authorization", "Xyz"), ("X-Trace", "1")])).Header "Authorization" = none :=
  ⟨(C3_authorization_token (New "" false) (New "" false).GetRestyClient.R
      (some [("Authorization", "Xyz"), ("X-Trace", "1")]) (by decide)).1 "Xyz" (by decide),
    (C3_authorization_token (New "" false) (New "" false).GetRestyClient.R
      (some [("Authorization", "Xyz"), ("X-Trace", "1")]) (by decide)).2.2.2.1 (by decide)⟩

/-- C3 as stated fails: with the keys `Authorization` and `authorization` both
carrying `Xyz`, `setHeader` sets the token `Xyz` and also writes the literal
header `Authorization: Xyz`. -/
theorem C3_counterexample :
    ([("Authorization", "Xyz"), ("authorization", "Xyz")].map Prod.fst).Nodup ∧
    ((New "" false).setHeader (New "" false).GetRestyClient.R
      (some [("Authorization", "Xyz"), ("authorization", "Xyz")])).Token = "Xyz" ∧
    ((New "" false).setHeader (New "" false).GetRestyClient.R
      (some [("Authorization", "Xyz"), ("authorization", "Xyz")])).Header "Authorization" =
        some ["Xyz"] := by
  decide

/-! ## Methods and results of the verbs -/

/-- C7 at the failing input: whatever the URL, headers and body,
`PatchWithRawData` dispatches with the method `POST`, which is not `PATCH`; a
transport that answers with the method it was given shows it. -/
theorem C7_patch_dispatches_post (c : Client) (url : String)
    (H : Option (List (String × String))) (d : Any) :
    c.PatchWithRawData (fun m _ _ => (none, some (Error.transport m))) url H d =
        (none, some (Error.transport "POST")) ∧
      (∀ T, c.PatchWithRawData T url H d = c.PostWithRawData T url H d) ∧
      MethodPost ≠ MethodPatch :=
  ⟨rfl, fun _ => rfl, by decide⟩

/-- The part of C7 that holds: every other verb dispatches the method it is
named for. -/
theorem verbs_dispatch_named_method (c : Client) (url : String)
    (H : Option (List (String × String))) (req : Request) (T : Transport) :
    Get T url req = surface (T "GET" url (parseRequestBody "GET" req)) ∧
    Post T url req = surface (T "POST" url (parseRequestBody "POST" req)) ∧
    (∃ r, c.Get T url H = surface (T "GET" url r)) ∧
    (∀ d, ∃ r, c.Post T url H d = surface (T "POST" url r)) ∧
    (∀ d, ∃ r, c.PostWithRawData T url H d = T "POST" url r) ∧
    (∀ d, ∃ r, c.Put T url H d = surface (T "PUT" url r)) ∧
    (∃ r, c.Delete T url H = T "DELETE" url r) ∧
    (∀ d, ∃ r, c.DeleteWithRawData T url H d = T "DELETE" url r) ∧
    (∃ r, c.Head T url H = T "HEAD" url r) :=
  ⟨surface_eq _, surface_eq _, ⟨_, surface_eq _⟩, fun _ => ⟨_, surface_eq _⟩,
    fun _ => ⟨_, rfl⟩, fun _ => ⟨_, surface_eq _⟩, ⟨_, rfl⟩, fun _ => ⟨_, rfl⟩, ⟨_, rfl⟩⟩

/-- C8 at the failing input: when the transport hands back a response together
with an error, `Delete`, `DeleteWithRawData`, `PostWithRawData`,
`PatchWithRawData` and `Head` return that response with the error, not an
absent one. -/
theorem C8_response_kept_on_error (c : Client) (url : String)
    (H : Option (List (String × String))) (d : Any) (resp : Response) (e : Error) :
    c.Delete (fun _ _ _ => (some resp, some e)) url H = (some resp, some e) ∧
    c.DeleteWithRawData (fun _ _ _ => (some resp, some e)) url H d = (some resp, some e) ∧
    c.PostWithRawData (fun _ _ _ => (some resp, some e)) url H d = (some resp, some e) ∧
    c.PatchWithRawData (fun _ _ _ => (some resp, some e)) url H d = (some resp, some e) ∧
    c.Head (fun _ _ _ => (some resp, some e)) url H = (some resp, some e) :=
  ⟨rfl, rfl, rfl, rfl, rfl⟩

/-- The part of C8 that holds: `Get`, `Post` and `Put` return the error alone
on an error, and every verb returns the transport's pair when there is none. -/
theorem verbs_surface_result (c : Client) (url : String)
    (H : Option (List (String × String))) (T : Transport) :
    (∃ r, c.Get T url H = surface (T MethodGet url r)) ∧
    (∀ d, ∃ r, c.Post T url H d = surface (T MethodPost url r)) ∧
    (∀ d, ∃ r, c.Put T url H d = surface (T MethodPut url r)) ∧
    (∀ resp e, surface (resp, some e) = (none, some e)) ∧
    (∀ resp, surface (resp, none) = (resp, none)) :=
  ⟨⟨_, surface_eq _⟩, fun _ => ⟨_, surface_eq _⟩, fun _ => ⟨_, surface_eq _⟩,
    fun _ _ => rfl, fun _ => rfl⟩

/-! ## Form data -/

theorem mem_map_toString (D : List (String × Any)) (kv : String × Any) (h : kv ∈ D) :
    (kv.1, ToString kv.2) ∈ ToStringMapString (.mapStringInterface D) := by
  unfold ToStringMapString
  exact List.mem_map.2 ⟨kv, h, rfl⟩

theorem keys_map_toString (D : List (String × Any)) :
    (ToStringMapString (.mapStringInterface D)).map Prod.fst = D.map Prod.fst := by
  unfold ToStringMapString
  simp [List.map_map, Function.comp_def]

theorem parseRequestBody_formData (m : String) (r : Request) :
    (parseRequestBody m r).FormData = r.FormData := by
  unfold parseRequestBody
  split <;> rfl

theorem setFormData_fresh (S : List (String × String)) (r : Request) (hr : r.FormData = [])
    (hS : (S.map Prod.fst).Nodup) :
    (r.SetFormData S).FormData = S.map (fun kv => (kv.1, [kv.2])) := by
  rw [setFormData_append S r (by rw [hr]; simpa using hS), hr]
  rfl

/-- C9: the form data set from a map has, at each key of the map, the string
coercion of the value there and is unchanged elsewhere, so on a request without
form data it is the map with every value coerced; the coercion is the identity
on a string, the decimal numeral on an integer (digits only, no leading zero,
of the integer's value, after a minus sign for a negative one), `true` or
`false` on a boolean and the empty string on nil; `Post` and `Put` on a non-nil
string map dispatch a request whose form data is that map, and on a nil map one
without form data. -/
theorem C9_form_body (c : Client) (url : String) (H : Option (List (String × String)))
    (req : Request) (D : List (String × Any)) (S : List (String × String))
    (hD : (D.map Prod.fst).Nodup) (hS : (S.map Prod.fst).Nodup) :
    ((∀ kv ∈ D, List.lookup kv.1 (SetRequestBody D req).FormData = some [ToString kv.2]) ∧
      (∀ k, k ∉ D.map Prod.fst →
        List.lookup k (SetRequestBody D req).FormData = List.lookup k req.FormData) ∧
      (req.FormData = [] →
        (SetRequestBody D req).FormData = D.map (fun kv => (kv.1, [ToString kv.2])))) ∧
    ((∀ s, ToString (.str s) = s) ∧
      (∀ n : Nat, (∀ ch ∈ (ToString (.int n)).data, isDigit ch = true) ∧
        digitsValue (ToString (.int n)).data = n ∧
        (∀ t, (ToString (.int n)).data = '0' :: t → n = 0 ∧ t = [])) ∧
      (∀ n : Nat, (ToString (.int (Int.negSucc n))).data =
        '-' :: (ToString (.int ((n + 1 : Nat) : Int))).data) ∧
      ToString (.bool true) = "true" ∧ ToString (.bool false) = "false" ∧
      ToString .nil = "") ∧
    (∃ r, r.FormData = S.map (fun kv => (kv.1, [kv.2])) ∧
      ∀ T, c.Post T url H (some S) = surface (T MethodPost url r)) ∧
    (∃ r, r.FormData = S.map (fun kv => (kv.1, [kv.2])) ∧
      ∀ T, c.Put T url H (some S) = surface (T MethodPut url r)) ∧
    (∃ r, r.FormData = [] ∧ ∀ T, c.Post T url H none = surface (T MethodPost url r)) ∧
    (∃ r, r.FormData = [] ∧ ∀ T, c.Put T url H none = surface (T MethodPut url r)) := by
  refine ⟨⟨?_, ?_, ?_⟩, ⟨fun s => rfl, ?_, fun n => rfl, rfl, rfl, rfl⟩, ?_, ?_, ?_, ?_⟩
  · intro kv hkv
    unfold SetRequestBody
    apply setFormData_mem
    · rw [keys_map_toString]; exact hD
    · exact mem_map_toString D kv hkv
  · intro k hk
    unfold SetRequestBody
    apply setFormData_other
    rw [keys_map_toString]; exact hk
  · intro hr
    unfold SetRequestBody
    rw [setFormData_fresh _ req hr (by rw [keys_map_toString]; exact hD)]
    simp [ToStringMapString, List.map_map, Function.comp_def]
  · intro n
    have h := toDigits_spec n
    have e : (ToString (.int n)).data = Nat.toDigits 10 n := rfl
    rw [e]
    exact ⟨h.2.1, h.2.2.1, h.2.2.2⟩
  · refine ⟨_, ?_, fun T => surface_eq _⟩
    rw [parseRequestBody_formData]
    exact setFormData_fresh S _ (initRequest_formData c H) hS
  · refine ⟨_, ?_, fun T => surface_eq _⟩
    rw [parseRequestBody_formData]
    exact setFormData_fresh S _ (initRequest_formData c H) hS
  · refine ⟨_, ?_, fun T => surface_eq _⟩
    rw [parseRequestBody_formData]
    exact initRequest_formData c H
  · refine ⟨_, ?_, fun T => surface_eq _⟩
    rw [parseRequestBody_formData]
    exact initRequest_formData c H

theorem C9_form_body_witness :
    (List.lookup "n"
      (SetRequestBody [("n", Any.int (-42)), ("ok", Any.bool true), ("z", Any.nil),
        ("f", Any.float "1.5")] (New "" false).GetRestyClient.R).FormData =
          some [ToString (Any.int (-42))] ∧
      ToString (Any.int (-42)) = "-42") ∧
    (List.lookup "f"
      (SetRequestBody [("n", Any.int (-42)), ("ok", Any.bool true), ("z", Any.nil),
        ("f", Any.float "1.5")] (New "" false).GetRestyClient.R).FormData =
          some [ToString (Any.float "1.5")] ∧
      ToString (Any.float "1.5") = "1.5") ∧
    ∃ r, r.FormData = [("u", ["a"]), ("p", ["b"])] ∧
      ∀ T, (New "" false).Post T "/login" none (some [("u", "a"), ("p", "b")]) =
        surface (T MethodPost "/login" r) :=
  ⟨⟨(C9_form_body (New "" false) "/login" none (New "" false).GetRestyClient.R
      [("n", Any.int (-42)), ("ok", Any.bool true), ("z", Any.nil), ("f", Any.float "1.5")]
      [("u", "a"), ("p", "b")] (by decide) (by decide)).1.1 ("n", Any.int (-42))
        (by decide), by decide⟩,
    ⟨(C9_form_body (New "" false) "/login" none (New "" false).GetRestyClient.R
      [("n", Any.int (-42)), ("ok", Any.bool true), ("z", Any.nil), ("f", Any.float "1.5")]
      [("u", "a"), ("p", "b")] (by decide) (by decide)).1.1 ("f", Any.float "1.5")
        (by decide), by decide⟩,
    (C9_form_body (New "" false) "/login" none (New "" false).GetRestyClient.R
      [("n", Any.int (-42)), ("ok", Any.bool true), ("z", Any.nil), ("f", Any.float "1.5")]
      [("u", "a"), ("p", "b")] (by decide) (by decide)).2.2.1⟩

/-! ## The timeout -/

/-- C10: for a 64-bit `second`, `SetTimeout` installs `second` seconds exactly
when `second` lies between -9223372036 and 9223372036, a different duration
outside (a negative one for 9223372037), and leaves host and debug flag as
they were. -/
theorem C10_set_timeout (c : Client) (s : Int) (hlo : -2 ^ 63 ≤ s) (hhi : s < 2 ^ 63) :
    ((-9223372036 ≤ s ∧ s ≤ 9223372036) →
      (c.SetTimeout s).GetRestyClient.timeout = s * 1000000000) ∧
    (¬ (-9223372036 ≤ s ∧ s ≤ 9223372036) →
      (c.SetTimeout s).GetRestyClient.timeout ≠ s * 1000000000) ∧
    (c.SetTimeout 9223372037).GetRestyClient.timeout < 0 ∧
    (c.SetTimeout s).GetHost = c.GetHost ∧
    (c.SetTimeout s).GetDebug = c.GetDebug ∧
    (c.SetTimeout s).GetRestyClient.HostURL = c.GetRestyClient.HostURL ∧
    (c.SetTimeout s).GetRestyClient.Debug = c.GetRestyClient.Debug := by
  have ht : ∀ x, (c.SetTimeout x).GetRestyClient.timeout =
      (x * 1000000000 + 2 ^ 63) % 2 ^ 64 - 2 ^ 63 := fun _ => rfl
  refine ⟨?_, ?_, ?_, rfl, rfl, rfl, rfl⟩
  · intro h
    rw [ht]
    omega
  · intro h
    rw [ht]
    omega
  · rw [ht]
    decide

theorem C10_set_timeout_witness :
    (-9223372036 ≤ (30 : Int) ∧ (30 : Int) ≤ 9223372036) ∧
      ((New "https://api.example/" true).SetTimeout 30).GetRestyClient.timeout =
        30 * 1000000000 :=
  ⟨by decide, (C10_set_timeout (New "https://api.example/" true) 30 (by decide)
    (by decide)).1 (by decide)⟩


/-! ## The response decoder -/

theorem mapSet_length (m : List (String × JSONValue)) (kv : String × JSONValue) :
    m.length ≤ (mapSet m kv).length ∧ 0 < (mapSet m kv).length := by
  unfold mapSet
  split <;> simp
  rename_i h
  obtain ⟨e, he, _⟩ := List.any_eq_true.1 h
  exact List.length_pos_of_mem he

theorem foldl_mapSet_length (l m : List (String × JSONValue)) :
    m.length ≤ (l.foldl mapSet m).length ∧ (l ≠ [] → 0 < (l.foldl mapSet m).length) := by
  induction l generalizing m with
  | nil => simp
  | cons kv t ih =>
    rw [List.foldl_cons]
    have h1 := mapSet_length m kv
    have h2 := (ih (mapSet m kv)).1
    exact ⟨by omega, fun _ => by omega⟩

theorem toInterfaceMembers_ne_nil (kvs : List (String × JSONValue)) (h : kvs ≠ []) :
    toInterfaceMembers kvs ≠ [] := by
  cases kvs with
  | nil => exact absurd rfl h
  | cons kv t => simp [toInterfaceMembers]

theorem getBodyJSON_invalid (r : Response) (h : parseJSON r.body = none) :
    GetBodyJSON (some r) = (none, some Error.jsonSyntax) := by
  simp [GetBodyJSON, Unmarshal, h]

theorem getBodyJSON_null (r : Response) (h : parseJSON r.body = some .null) :
    GetBodyJSON (some r) = (none, some (Error.errorString "body not found")) := by
  simp [GetBodyJSON, Unmarshal, h, mapLen]

theorem getBodyJSON_overflow (r : Response) (kvs : List (String × JSONValue))
    (lit : List Char) (h : parseJSON r.body = some (.object kvs))
    (ho : firstOverflowMembers kvs = some lit) :
    GetBodyJSON (some r) =
      (none, some (Error.jsonUnmarshalType ("number " ++ String.mk lit))) := by
  simp [GetBodyJSON, Unmarshal, h, ho]

theorem getBodyJSON_object (r : Response) (kvs : List (String × JSONValue))
    (h : parseJSON r.body = some (.object kvs)) (ho : firstOverflowMembers kvs = none) :
    GetBodyJSON (some r) =
      if kvs.length = 0 then (none, some (Error.errorString "body not found"))
      else (some ((toInterfaceMembers kvs).foldl mapSet []), none) := by
  by_cases hk : kvs = []
  · subst hk
    simp [GetBodyJSON, Unmarshal, h, firstOverflowMembers, toInterfaceMembers, mapLen]
  · have hl := (foldl_mapSet_length (toInterfaceMembers kvs) []).2
      (toInterfaceMembers_ne_nil kvs hk)
    have hl' : ¬ ((toInterfaceMembers kvs).foldl mapSet []).length = 0 := by omega
    have hk' : ¬ kvs.length = 0 := fun e => hk (List.length_eq_zero.1 e)
    simp [GetBodyJSON, Unmarshal, h, ho, mapLen, hk', hl']

theorem getBodyJSON_shape (r : Response) (v : JSONValue) (h : parseJSON r.body = some v)
    (hn : v ≠ .null) (ho : ∀ kvs, v ≠ .object kvs) :
    ∃ s, GetBodyJSON (some r) = (none, some (Error.jsonUnmarshalType s)) := by
  cases v with
  | null => exact absurd rfl hn
  | object kvs => exact absurd rfl (ho kvs)
  | bool b => exact ⟨"bool", by simp [GetBodyJSON, Unmarshal, h]⟩
  | number n => exact ⟨"number", by simp [GetBodyJSON, Unmarshal, h]⟩
  | string n => exact ⟨"string", by simp [GetBodyJSON, Unmarshal, h]⟩
  | array n => exact ⟨"array", by simp [GetBodyJSON, Unmarshal, h]⟩

/-- The outcomes of `GetBodyJSON` on a non-nil response, by what the body
parses to. -/
theorem getBodyJSON_cases (r : Response) :
    (parseJSON r.body = none ∧ GetBodyJSON (some r) = (none, some Error.jsonSyntax)) ∨
    (parseJSON r.body = some .null ∧
      GetBodyJSON (some r) = (none, some (Error.errorString "body not found"))) ∨
    (parseJSON r.body = some (.object []) ∧
      GetBodyJSON (some r) = (none, some (Error.errorString "body not found"))) ∨
    (∃ m, m ≠ [] ∧ GetBodyJSON (some r) = (some m, none)) ∨
    (∃ s, GetBodyJSON (some r) = (none, some (Error.jsonUnmarshalType s))) := by
  cases h : parseJSON r.body with
  | none => exact Or.inl ⟨rfl, getBodyJSON_invalid r h⟩
  | some v =>
    by_cases hn : v = .null
    · subst hn
      exact Or.inr (Or.inl ⟨rfl, getBodyJSON_null r h⟩)
    by_cases ho : ∃ kvs, v = .object kvs
    · obtain ⟨kvs, hk⟩ := ho
      subst hk
      cases hf : firstOverflowMembers kvs with
      | some lit => exact Or.inr (Or.inr (Or.inr (Or.inr ⟨_, getBodyJSON_overflow r kvs lit h hf⟩)))
      | none =>
        have hg := getBodyJSON_object r kvs h hf
        by_cases hk : kvs = []
        · subst hk
          exact Or.inr (Or.inr (Or.inl ⟨rfl, by rw [hg]; rfl⟩))
        · rw [if_neg (fun e => hk (List.length_eq_zero.1 e))] at hg
          refine Or.inr (Or.inr (Or.inr (Or.inl ⟨_, ?_, hg⟩)))
          intro he
          have hl := (foldl_mapSet_length (toInterfaceMembers kvs) []).2
            (toInterfaceMembers_ne_nil kvs hk)
          rw [he] at hl
          simp at hl
    · exact Or.inr (Or.inr (Or.inr (Or.inr
        (getBodyJSON_shape r v h hn (fun kvs hk => ho ⟨kvs, hk⟩)))))

/-- C4: `GetBodyJSON` fails for a nil response with "response not found",
otherwise for a body that is not valid JSON with the parser's syntax error,
otherwise for the body `{}` with "body not found"; the three errors differ
from each other, and with every error the returned map is nil. -/
theorem C4_failure_modes (r : Response) (status : Nat) (header : Header)
    (hbad : parseJSON r.body = none) :
    GetBodyJSON none = (none, some (Error.errorString "response not found")) ∧
    GetBodyJSON (some r) = (none, some Error.jsonSyntax) ∧
    GetBodyJSON (some ⟨status, header, ['{', '}']⟩) =
      (none, some (Error.errorString "body not found")) ∧
    (Error.errorString "response not found" ≠ Error.jsonSyntax ∧
      Error.jsonSyntax ≠ Error.errorString "body not found" ∧
      Error.errorString "response not found" ≠ Error.errorString "body not found") ∧
    (∀ resp, (GetBodyJSON resp).2 ≠ none → (GetBodyJSON resp).1 = none) := by
  refine ⟨rfl, getBodyJSON_invalid r hbad, rfl, ⟨by decide, by decide, by decide⟩, ?_⟩
  intro resp
  cases resp with
  | none => intro _; rfl
  | some q =>
    intro hne
    rcases getBodyJSON_cases q with ⟨_, h⟩ | ⟨_, h⟩ | ⟨_, h⟩ | ⟨m, _, h⟩ | ⟨s, h⟩
    · rw [h]
    · rw [h]
    · rw [h]
    · rw [h] at hne
      exact absurd rfl hne
    · rw [h]

theorem C4_failure_modes_witness :
    GetBodyJSON (some ⟨200, emptyStore, ['{', '"', 'a', '"', ':']⟩) =
      (none, some Error.jsonSyntax) :=
  (C4_failure_modes ⟨200, emptyStore, ['{', '"', 'a', '"', ':']⟩ 200 emptyStore
    (by rfl)).2.1

/-- C6, as amended: for a non-nil response, a body that is not valid JSON fails
with the parser's syntax error and a body that is a JSON array, number, string
or boolean with the parser's type error, never with "body not found"; that
error is returned exactly for a body that parses to an object with no key or
to `null`. -/
theorem C6_non_object_bodies (r : Response) :
    (parseJSON r.body = none → GetBodyJSON (some r) = (none, some Error.jsonSyntax)) ∧
    (∀ v, parseJSON r.body = some v → v ≠ .null → (∀ kvs, v ≠ .object kvs) →
      ∃ s, GetBodyJSON (some r) = (none, some (Error.jsonUnmarshalType s))) ∧
    (GetBodyJSON (some r) = (none, some (Error.errorString "body not found")) ↔
      parseJSON r.body = some .null ∨ parseJSON r.body = some (.object [])) ∧
    (parseJSON [] = none ∧
      parseJSON ['[', '1', ']'] = some (.array [.number ['1']]) ∧
      parseJSON ['1', '2'] = some (.number ['1', '2']) ∧
      parseJSON ['"', 'x', '"'] = some (.string "x")) := by
  refine ⟨getBodyJSON_invalid r, fun v h hn ho => getBodyJSON_shape r v h hn ho, ?_,
    ⟨rfl, rfl, rfl, rfl⟩⟩
  constructor
  · intro hg
    rcases getBodyJSON_cases r with ⟨_, h⟩ | ⟨hp, _⟩ | ⟨hp, _⟩ | ⟨m, _, h⟩ | ⟨s, h⟩
    · rw [h] at hg
      simp at hg
    · exact Or.inl hp
    · exact Or.inr hp
    · rw [h] at hg
      simp at hg
    · rw [h] at hg
      simp at hg
  · rintro (h | h)
    · exact getBodyJSON_null r h
    · rw [getBodyJSON_object r [] h rfl]
      rfl

theorem C6_non_object_bodies_witness :
    ∃ s, GetBodyJSON (some ⟨200, emptyStore, ['[', '1', ']']⟩) =
      (none, some (Error.jsonUnmarshalType s)) :=
  (C6_non_object_bodies ⟨200, emptyStore, ['[', '1', ']']⟩).2.1 _ rfl (by simp)
    (by simp)

/-- C6 as stated fails: the body `null` is valid JSON of another shape than an
object, the parser reports no error for it, and `GetBodyJSON` fails with
"body not found". -/
theorem C6_counterexample :
    parseJSON ['n', 'u', 'l', 'l'] = some JSONValue.null ∧
    Unmarshal ['n', 'u', 'l', 'l'] = (none, none) ∧
    GetBodyJSON (some ⟨200, emptyStore, ['n', 'u', 'l', 'l']⟩) =
      (none, some (Error.errorString "body not found")) :=
  ⟨rfl, rfl, rfl⟩


/-! ## Decoding what the serialization wrote: numbers -/

theorem takeDigits_append (cs rest : List Char) (h : EndsNumber rest) :
    takeDigits (cs ++ rest) = ((takeDigits cs).1, (takeDigits cs).2 ++ rest) := by
  induction cs with
  | nil =>
    cases rest with
    | nil => rfl
    | cons c r => simp [takeDigits, (h c r rfl).1]
  | cons c cs ih =>
    by_cases hc : isDigit c = true
    · simp [takeDigits, hc, ih]
    · simp [takeDigits, hc]

theorem scanSign_append (cs rest : List Char) (h : EndsNumber rest) :
    scanSign (cs ++ rest) = ((scanSign cs).1, (scanSign cs).2 ++ rest) := by
  cases cs with
  | nil =>
    cases rest with
    | nil => rfl
    | cons c r => simp [scanSign, (h c r rfl).2.2.2.2.2]
  | cons c cs =>
    by_cases hc : c = '-' <;> simp [scanSign, hc]

theorem scanExpSign_append (cs rest : List Char) (h : EndsNumber rest) :
    scanExpSign (cs ++ rest) = ((scanExpSign cs).1, (scanExpSign cs).2 ++ rest) := by
  cases cs with
  | nil =>
    cases rest with
    | nil => rfl
    | cons c r => simp [scanExpSign, (h c r rfl).2.2.2.2.2, (h c r rfl).2.2.2.2.1]
  | cons c cs =>
    by_cases hc : c = '+' ∨ c = '-' <;> simp [scanExpSign, hc]

theorem scanInt_append (cs rest : List Char) (h : EndsNumber rest) :
    scanInt (cs ++ rest) = (scanInt cs).map (fun p => (p.1, p.2 ++ rest)) := by
  cases cs with
  | nil =>
    cases rest with
    | nil => rfl
    | cons c r => simp [scanInt, (h c r rfl).1]
  | cons c cs =>
    by_cases hd : isDigit c = true
    · by_cases hz : c = '0'
      · subst hz
        have h0 : isDigit '0' = true := by decide
        simp [scanInt, h0]
      · simp [scanInt, hd, hz, takeDigits_append cs rest h]
    · simp [scanInt, hd]

theorem scanFrac_append (cs rest : List Char) (h : EndsNumber rest) :
    scanFrac (cs ++ rest) = (scanFrac cs).map (fun p => (p.1, p.2 ++ rest)) := by
  cases cs with
  | nil =>
    cases rest with
    | nil => rfl
    | cons c r => simp [scanFrac, (h c r rfl).2.1]
  | cons c cs =>
    by_cases hd : c = '.'
    · by_cases he : (takeDigits cs).1 = []
      · simp [scanFrac, hd, he, takeDigits_append cs rest h]
      · simp [scanFrac, hd, he, takeDigits_append cs rest h]
    · simp [scanFrac, hd]

theorem scanExp_append (cs rest : List Char) (h : EndsNumber rest) :
    scanExp (cs ++ rest) = (scanExp cs).map (fun p => (p.1, p.2 ++ rest)) := by
  cases cs with
  | nil =>
    cases rest with
    | nil => rfl
    | cons c r => simp [scanExp, (h c r rfl).2.2.1, (h c r rfl).2.2.2.1]
  | cons c cs =>
    by_cases hd : c = 'e' ∨ c = 'E'
    · by_cases he : (takeDigits (scanExpSign cs).2).1 = []
      · simp [scanExp, hd, he, scanExpSign_append cs rest h,
          takeDigits_append _ rest h]
      · simp [scanExp, hd, he, scanExpSign_append cs rest h,
          takeDigits_append _ rest h]
    · simp [scanExp, hd]

theorem scanNumber_append (cs rest : List Char) (h : EndsNumber rest) :
    scanNumber (cs ++ rest) = (scanNumber cs).map (fun p => (p.1, p.2 ++ rest)) := by
  unfold scanNumber
  rw [scanSign_append cs rest h]
  simp only [scanInt_append _ rest h]
  cases h1 : scanInt (scanSign cs).2 with
  | none => rfl
  | some p1 =>
    simp only [Option.map_some', scanFrac_append _ rest h]
    cases h2 : scanFrac p1.2 with
    | none => rfl
    | some p2 =>
      simp only [Option.map_some', scanExp_append _ rest h]
      cases h3 : scanExp p2.2 with
      | none => rfl
      | some p3 => rfl

theorem scanNumber_literal (lit rest : List Char) (hl : scanNumber lit = some (lit, []))
    (h : EndsNumber rest) : scanNumber (lit ++ rest) = some (lit, rest) := by
  rw [scanNumber_append lit rest h, hl]
  rfl

/-- A number literal starts with a digit or a minus sign. -/
theorem scanNumber_head (lit : List Char) (hl : scanNumber lit = some (lit, [])) :
    ∃ c l, lit = c :: l ∧ (isDigit c = true ∨ c = '-') := by
  cases lit with
  | nil => simp [scanNumber, scanSign, scanInt] at hl
  | cons c l =>
    refine ⟨c, l, rfl, ?_⟩
    by_cases hc : c = '-'
    · exact Or.inr hc
    · left
      by_contra hd
      simp [scanNumber, scanSign, hc, scanInt, hd] at hl


/-! ## The numbers that the serialization writes -/

theorem takeDigits_digits (ds rest : List Char) (hd : ∀ c ∈ ds, isDigit c = true)
    (hr : NoDigitHead rest) : takeDigits (ds ++ rest) = (ds, rest) := by
  induction ds with
  | nil =>
    cases rest with
    | nil => rfl
    | cons c r => simp [takeDigits, hr c r rfl]
  | cons c cs ih =>
    have hc := hd c (List.mem_cons_self _ _)
    have := ih (fun x hx => hd x (List.mem_cons_of_mem _ hx))
    simp [takeDigits, hc, this]

theorem fin10_isDigit : ∀ d : Fin 10, isDigit (Char.ofNat (48 + d.val)) = true := by
  decide

theorem fracText_digits (ds : List (Fin 10)) : ∀ c ∈ fracText ds, isDigit c = true := by
  intro c hc
  unfold fracText at hc
  obtain ⟨d, _, hd⟩ := List.mem_map.1 hc
  subst hd
  exact fin10_isDigit d

theorem fracText_length (ds : List (Fin 10)) : (fracText ds).length = ds.length := by
  simp [fracText]

theorem fracText_ne_nil (ds : List (Fin 10)) (h : ds ≠ []) : fracText ds ≠ [] := by
  cases ds with
  | nil => exact absurd rfl h
  | cons d t => simp [fracText]

theorem digitsValue_foldl (l : List Char) (a : Nat) :
    l.foldl (fun a c => a * 10 + (c.toNat - 48)) a = a * 10 ^ l.length + digitsValue l := by
  induction l generalizing a with
  | nil => simp [digitsValue]
  | cons c t ih =>
    simp only [List.foldl_cons, digitsValue, List.length_cons]
    rw [ih, ih (0 * 10 + (c.toNat - 48))]
    ring

theorem digitsValue_append (a b : List Char) :
    digitsValue (a ++ b) = digitsValue a * 10 ^ b.length + digitsValue b := by
  unfold digitsValue
  rw [List.foldl_append, digitsValue_foldl]
  rfl

theorem fracValue_foldl (l : List (Fin 10)) (a : Nat) :
    l.foldl (fun a d => a * 10 + d.val) a = a * 10 ^ l.length + fracValue l := by
  induction l generalizing a with
  | nil => simp [fracValue]
  | cons c t ih =>
    simp only [List.foldl_cons, fracValue, List.length_cons]
    rw [ih, ih (0 * 10 + c.val)]
    ring

theorem fin10_char : ∀ d : Fin 10, (Char.ofNat (48 + d.val)).toNat - 48 = d.val := by
  decide

theorem digitsValue_fracText (ds : List (Fin 10)) : digitsValue (fracText ds) = fracValue ds := by
  induction ds with
  | nil => rfl
  | cons d t ih =>
    have e : fracText (d :: t) = [Char.ofNat (48 + d.val)] ++ fracText t := rfl
    have e' : fracValue (d :: t) = d.val * 10 ^ t.length + fracValue t := by
      have := fracValue_foldl t (0 * 10 + d.val)
      simp only [Nat.zero_mul, Nat.zero_add] at this
      simp only [fracValue, List.foldl_cons, Nat.zero_mul, Nat.zero_add]
      exact this
    rw [e, digitsValue_append, ih, e', fracText_length]
    simp [digitsValue, fin10_char]

theorem text_parts (n : NumberLit) :
    n.text = signPart n ++ (Nat.toDigits 10 n.int ++ (fracPart n ++ expPart n)) := by
  unfold NumberLit.text signPart fracPart expPart
  rfl

theorem expPart_noDigit (n : NumberLit) : NoDigitHead (expPart n) := by
  intro c r h
  unfold expPart at h
  cases he : n.exp with
  | none => simp [he] at h
  | some e =>
    simp only [he, List.cons.injEq] at h
    rw [← h.1]
    decide

theorem expPart_noDot (n : NumberLit) : ∀ c r, expPart n = c :: r → c ≠ '.' := by
  intro c r h
  unfold expPart at h
  cases he : n.exp with
  | none => simp [he] at h
  | some e =>
    simp only [he, List.cons.injEq] at h
    rw [← h.1]
    decide

theorem fracPart_noDigit (n : NumberLit) : NoDigitHead (fracPart n ++ expPart n) := by
  unfold fracPart
  by_cases hf : n.frac = []
  · simp only [hf, if_true, List.nil_append]
    exact expPart_noDigit n
  · simp only [hf, if_false, List.cons_append]
    intro c r h
    simp only [List.cons.injEq] at h
    rw [← h.1]
    decide

theorem scanExp_expPart (n : NumberLit) : scanExp (expPart n) = some (expPart n, []) := by
  unfold expPart
  cases he : n.exp with
  | none => rfl
  | some e =>
    have hs := toDigits_spec e.natAbs
    have ht : takeDigits (Nat.toDigits 10 e.natAbs) = (Nat.toDigits 10 e.natAbs, []) := by
      have := takeDigits_digits (Nat.toDigits 10 e.natAbs) [] hs.2.1 (by intro c r h; cases h)
      simpa using this
    by_cases hneg : e < 0
    · simp [scanExp, scanExpSign, hneg, ht, hs.1]
    · simp [scanExp, scanExpSign, hneg, ht, hs.1]

theorem expValue_expPart (n : NumberLit) : expValue (expPart n) = n.exp.getD 0 := by
  unfold expPart
  cases he : n.exp with
  | none => rfl
  | some e =>
    have hs := toDigits_spec e.natAbs
    have hm : scanExpSign ('-' :: Nat.toDigits 10 e.natAbs) =
        (['-'], Nat.toDigits 10 e.natAbs) := by simp [scanExpSign]
    have hp : scanExpSign ('+' :: Nat.toDigits 10 e.natAbs) =
        (['+'], Nat.toDigits 10 e.natAbs) := by simp [scanExpSign]
    by_cases hneg : e < 0
    · simp only [hneg, if_true, expValue, hm, hs.2.2.1, Option.getD_some]
      omega
    · have h1 : (['+'] : List Char) ≠ ['-'] := by decide
      simp only [hneg, if_false, expValue, hp, h1, hs.2.2.1, Option.getD_some]
      omega

theorem scanFrac_fracPart (n : NumberLit) :
    scanFrac (fracPart n ++ expPart n) = some (fracPart n, expPart n) := by
  unfold fracPart
  by_cases hf : n.frac = []
  · simp only [hf, if_true, List.nil_append]
    cases hx : expPart n with
    | nil => rfl
    | cons c r =>
      have := expPart_noDot n c r hx
      simp [scanFrac, this]
  · simp only [hf, if_false, List.cons_append]
    have ht := takeDigits_digits (fracText n.frac) (expPart n) (fracText_digits _)
      (expPart_noDigit n)
    simp [scanFrac, ht, fracText_ne_nil _ hf]

theorem scanInt_digits (k : Nat) (rest : List Char) (hr : NoDigitHead rest) :
    scanInt (Nat.toDigits 10 k ++ rest) = some (Nat.toDigits 10 k, rest) := by
  have hs := toDigits_spec k
  cases hd : Nat.toDigits 10 k with
  | nil => exact absurd hd hs.1
  | cons c t =>
    rw [hd] at hs
    have hc := hs.2.1 c (List.mem_cons_self _ _)
    by_cases hz : c = '0'
    · subst hz
      have := (hs.2.2.2 t rfl).2
      subst this
      simp [scanInt, hc]
    · have ht := takeDigits_digits t rest (fun x hx => hs.2.1 x (List.mem_cons_of_mem _ hx)) hr
      simp [scanInt, hc, hz, ht]

theorem scanSign_text (n : NumberLit) (rest : List Char) :
    scanSign (signPart n ++ (Nat.toDigits 10 n.int ++ rest)) =
      (signPart n, Nat.toDigits 10 n.int ++ rest) := by
  unfold signPart
  cases hn : n.neg with
  | true => simp [scanSign]
  | false =>
    have hs := toDigits_spec n.int
    cases hd : Nat.toDigits 10 n.int with
    | nil => exact absurd hd hs.1
    | cons c t =>
      rw [hd] at hs
      have hc := hs.2.1 c (List.mem_cons_self _ _)
      have hne : c ≠ '-' := by
        intro h
        subst h
        exact absurd hc (by decide)
      simp [scanSign, hne]

/-- The scanner reads the text of a number as one number literal. -/
theorem scanNumber_text (n : NumberLit) : scanNumber n.text = some (n.text, []) := by
  rw [text_parts]
  unfold scanNumber
  rw [scanSign_text]
  simp only [scanInt_digits n.int _ (fracPart_noDigit n), scanFrac_fracPart, scanExp_expPart]

theorem fracPart_drop (n : NumberLit) : (fracPart n).drop 1 = fracText n.frac := by
  unfold fracPart
  by_cases hf : n.frac = []
  · simp [hf, fracText]
  · simp [hf]

theorem reachesLimit_false (mant : Nat) (ex : Int)
    (h1 : 0 ≤ ex → mant * 10 ^ ex.toNat < float64Limit)
    (h2 : ex < 0 → mant < float64Limit * 10 ^ (-ex).toNat) : reachesLimit mant ex = false := by
  unfold reachesLimit
  by_cases h : 0 ≤ ex
  · simp only [h, if_true, decide_eq_false_iff_not, not_le]
    exact h1 h
  · simp only [h, if_false, decide_eq_false_iff_not, not_le]
    exact h2 (by omega)

/-- The text of a number in the range of `float64` converts without a range
error. -/
theorem floatOverflows_text (n : NumberLit) (h : n.finite) : floatOverflows n.text = false := by
  rw [text_parts]
  unfold floatOverflows
  rw [scanSign_text]
  simp only [scanInt_digits n.int _ (fracPart_noDigit n), scanFrac_fracPart, scanExp_expPart,
    fracPart_drop, expValue_expPart, fracText_length, digitsValue_append, digitsValue_fracText,
    (toDigits_spec n.int).2.2.1]
  exact reachesLimit_false _ _ h.1 h.2

theorem float64Limit_large : 2 ^ 64 ≤ float64Limit := by
  have h : ∀ k : Nat, 64 ≤ k → 2 ^ 64 ≤ 2 ^ k :=
    fun k hk => Nat.pow_le_pow_right (Nat.succ_pos 1) hk
  have key : ∀ a : Nat, 2 ^ 64 ≤ a → 2 ^ 64 ≤ a * 2 ^ 54 - a := by
    intro a h
    have h2 : (2 : Nat) ^ 54 = 18014398509481984 := by norm_num
    rw [h2]
    omega
  have e : float64Limit = 2 ^ 970 * 2 ^ 54 - 2 ^ 970 := by
    unfold float64Limit
    rw [← pow_add]
  rw [e]
  exact key _ (h 970 (by decide))

/-- A number that is small enough is in the range of `float64`. -/
theorem finite_of_small (n : NumberLit) (he : n.exp.getD 0 - (n.frac.length : Int) ≤ 0)
    (hm : n.int * 10 ^ n.frac.length + fracValue n.frac < 2 ^ 64) : n.finite := by
  have hl := float64Limit_large
  constructor
  · intro h0
    have e0 : n.exp.getD 0 - (n.frac.length : Int) = 0 := by omega
    rw [e0]
    simp only [Int.toNat_zero, pow_zero, mul_one]
    omega
  · intro _
    have hp : 0 < 10 ^ (-(n.exp.getD 0 - (n.frac.length : Int))).toNat := by positivity
    calc n.int * 10 ^ n.frac.length + fracValue n.frac < float64Limit := by omega
      _ ≤ float64Limit * 10 ^ (-(n.exp.getD 0 - (n.frac.length : Int))).toNat :=
        Nat.le_mul_of_pos_right _ hp


/-! ## Decoding what the serialization wrote: strings -/

theorem hexVal_hexDigit : ∀ k, k < 16 → hexVal (hexDigit k) = some k := by
  decide

theorem getu4_escapeU (n : Nat) (hn : n < 65536) (tail : List Char) :
    getu4 (escapeU n ++ tail) = some (n, tail) := by
  have h1 := hexVal_hexDigit (n / 4096 % 16) (Nat.mod_lt _ (by decide))
  have h2 := hexVal_hexDigit (n / 256 % 16) (Nat.mod_lt _ (by decide))
  have h3 := hexVal_hexDigit (n / 16 % 16) (Nat.mod_lt _ (by decide))
  have h4 := hexVal_hexDigit (n % 16) (Nat.mod_lt _ (by decide))
  simp only [escapeU, List.cons_append, List.nil_append, getu4, h1, h2, h3, h4]
  congr 2
  omega

theorem unquoteBody_escapeU (c : Char) (fuel : Nat) (tail : List Char)
    (hn : c.toNat < 0xD800) :
    unquoteBody (fuel + 1) (escapeU c.toNat ++ tail) =
      (unquoteBody fuel tail).map (fun p => (c :: p.1, p.2)) := by
  have hg := getu4_escapeU c.toNat (by omega) tail
  have hs : ¬ (0xD800 ≤ c.toNat ∧ c.toNat < 0xE000) := by omega
  have hc : Char.ofNat c.toNat = c := Char.ofNat_toNat c
  simp only [escapeU, List.cons_append, List.nil_append] at hg ⊢
  simp [unquoteBody, hg, hs, hc]

theorem unquoteBody_encodeChar (c : Char) (fuel : Nat) (tail : List Char) :
    unquoteBody (fuel + 1) (encodeChar c ++ tail) =
      (unquoteBody fuel tail).map (fun p => (c :: p.1, p.2)) := by
  unfold encodeChar
  by_cases h1 : c = '"'
  · subst h1; simp [unquoteBody]
  by_cases h2 : c = '\\'
  · subst h2; simp [unquoteBody]
  by_cases hb : c = Char.ofNat 8
  · subst hb; simp [unquoteBody]
  by_cases hf : c = Char.ofNat 12
  · subst hf; simp [unquoteBody]
  by_cases h3 : c = '\n'
  · subst h3; simp [unquoteBody]
  by_cases h4 : c = '\r'
  · subst h4; simp [unquoteBody]
  by_cases h5 : c = '\t'
  · subst h5; simp [unquoteBody]
  simp only [h1, h2, hb, hf, h3, h4, h5, if_false]
  by_cases h6 : c.toNat < 0x20 ∨ c = '<' ∨ c = '>' ∨ c = '&' ∨ c.toNat = 0x2028 ∨
      c.toNat = 0x2029
  · simp only [h6, if_true]
    apply unquoteBody_escapeU
    rcases h6 with h | h | h | h | h | h
    · omega
    · subst h; decide
    · subst h; decide
    · subst h; decide
    · omega
    · omega
  · simp only [h6, if_false]
    have hlt : ¬ c.toNat < 0x20 := fun h => h6 (Or.inl h)
    simp [unquoteBody, h1, h2, hlt]

theorem unquoteBody_encodeChars (s : List Char) (fuel : Nat) (tail : List Char)
    (hf : s.length < fuel) :
    unquoteBody fuel (encodeChars s ++ '"' :: tail) = some (s, tail) := by
  induction s generalizing fuel with
  | nil =>
    cases fuel with
    | zero => simp at hf
    | succ f => simp [encodeChars, unquoteBody]
  | cons c s ih =>
    cases fuel with
    | zero => simp at hf
    | succ f =>
      simp only [encodeChars, List.append_assoc]
      rw [unquoteBody_encodeChar, ih f (by simpa using hf)]
      rfl

theorem encodeChar_length (c : Char) : 1 ≤ (encodeChar c).length := by
  unfold encodeChar escapeU
  split_ifs <;> simp

theorem encodeChars_length (s : List Char) : s.length ≤ (encodeChars s).length := by
  induction s with
  | nil => simp [encodeChars]
  | cons c s ih =>
    simp only [encodeChars, List.length_cons, List.length_append]
    have := encodeChar_length c
    omega


/-! ## Decoding what the serialization wrote: values -/

theorem endsNumber_of_stops (rest : List Char) (h : Stops rest) : EndsNumber rest := by
  intro c r hr
  rcases h c r hr with h | h | h <;> subst h <;> decide

theorem stops_nil : Stops [] := by
  intro c r h
  cases h

theorem stops_cons (c : Char) (r : List Char) (h : c = ',' ∨ c = ']' ∨ c = '}') :
    Stops (c :: r) := by
  intro d r' hd
  cases hd
  exact h

theorem numberHead_facts (c : Char) (h : isDigit c = true ∨ c = '-') :
    isSpace c = false ∧ c ≠ ']' ∧ c ≠ '}' ∧ c ≠ ',' ∧ c ≠ ':' ∧ c ≠ '{' ∧ c ≠ '[' ∧
      c ≠ '"' ∧ c ≠ 't' ∧ c ≠ 'f' ∧ c ≠ 'n' := by
  have key : ∀ x : Char, isDigit x = false → x ≠ '-' → c ≠ x := by
    intro x hx hx' hc
    subst hc
    rcases h with h | h
    · rw [hx] at h; cases h
    · exact hx' h
  refine ⟨?_, key _ (by decide) (by decide), key _ (by decide) (by decide),
    key _ (by decide) (by decide), key _ (by decide) (by decide),
    key _ (by decide) (by decide), key _ (by decide) (by decide),
    key _ (by decide) (by decide), key _ (by decide) (by decide),
    key _ (by decide) (by decide), key _ (by decide) (by decide)⟩
  cases hsp : isSpace c with
  | false => rfl
  | true =>
    exfalso
    simp only [isSpace, Bool.or_eq_true, beq_iff_eq] at hsp
    rcases hsp with ((hsp | hsp) | hsp) | hsp
    · exact key _ (by decide) (by decide) hsp
    · exact key _ (by decide) (by decide) hsp
    · exact key _ (by decide) (by decide) hsp
    · exact key _ (by decide) (by decide) hsp

theorem wf_number_scan (lit : List Char) (hw : wfValue (.number lit)) :
    scanNumber lit = some (lit, []) := by
  simp only [wfValue] at hw
  obtain ⟨n, _, hn⟩ := hw
  rw [hn]
  exact scanNumber_text n

theorem wf_number_finite (lit : List Char) (hw : wfValue (.number lit)) :
    floatOverflows lit = false := by
  simp only [wfValue] at hw
  obtain ⟨n, hf, hn⟩ := hw
  rw [hn]
  exact floatOverflows_text n hf

theorem encodeValue_head (v : JSONValue) (hw : wfValue v) :
    ∃ c l, encodeValue v = c :: l ∧ ValueHead c := by
  cases v with
  | null => exact ⟨'n', _, rfl, by unfold ValueHead; decide⟩
  | bool b =>
    cases b with
    | true => exact ⟨'t', _, rfl, by unfold ValueHead; decide⟩
    | false => exact ⟨'f', _, rfl, by unfold ValueHead; decide⟩
  | number lit =>
    obtain ⟨c, l, hl, hc⟩ := scanNumber_head lit (wf_number_scan lit hw)
    have hf := numberHead_facts c hc
    exact ⟨c, l, by simp [encodeValue, hl], hf.1, hf.2.1, hf.2.2.1, hf.2.2.2.1, hf.2.2.2.2.1⟩
  | string s => exact ⟨'"', _, rfl, by unfold ValueHead; decide⟩
  | array xs => exact ⟨'[', _, rfl, by unfold ValueHead; decide⟩
  | object kvs => exact ⟨'{', _, rfl, by unfold ValueHead; decide⟩

theorem skipSpace_head (c : Char) (l : List Char) (h : isSpace c = false) :
    skipSpace (c :: l) = c :: l := by
  simp [skipSpace, h]


theorem parseValue_null (f d : Nat) (rest : List Char) :
    parseValue (f + 1) d ('n' :: 'u' :: 'l' :: 'l' :: rest) = some (.null, rest) := by
  simp [parseValue, skipSpace, isSpace]

theorem parseValue_true (f d : Nat) (rest : List Char) :
    parseValue (f + 1) d ('t' :: 'r' :: 'u' :: 'e' :: rest) = some (.bool true, rest) := by
  simp [parseValue, skipSpace, isSpace]

theorem parseValue_false (f d : Nat) (rest : List Char) :
    parseValue (f + 1) d ('f' :: 'a' :: 'l' :: 's' :: 'e' :: rest) =
      some (.bool false, rest) := by
  simp [parseValue, skipSpace, isSpace]

theorem parseValue_string (f d : Nat) (s : String) (rest : List Char) :
    parseValue (f + 1) d (encodeString s ++ rest) = some (.string s, rest) := by
  have h := unquoteBody_encodeChars s.data ((encodeChars s.data).length + (rest.length + 1) + 1)
    rest (by
      have := encodeChars_length s.data
      omega)
  simp only [encodeString, List.cons_append, List.append_assoc, List.nil_append]
  simp [parseValue, skipSpace, isSpace, h]

theorem parseValue_number (f d : Nat) (lit rest : List Char)
    (hl : scanNumber lit = some (lit, [])) (hs : Stops rest) :
    parseValue (f + 1) d (lit ++ rest) = some (.number lit, rest) := by
  obtain ⟨c, l, hcl, hc⟩ := scanNumber_head lit hl
  have hf := numberHead_facts c hc
  have hn := scanNumber_literal lit rest hl (endsNumber_of_stops rest hs)
  rw [hcl] at hn ⊢
  simp only [List.cons_append] at hn ⊢
  simp [parseValue, skipSpace, hf.1, hf.2.2.2.2.2.1, hf.2.2.2.2.2.2.1, hf.2.2.2.2.2.2.2.1,
    hf.2.2.2.2.2.2.2.2.1, hf.2.2.2.2.2.2.2.2.2.1, hf.2.2.2.2.2.2.2.2.2.2, hn]

theorem parseValue_array_nil (f d : Nat) (rest : List Char) :
    parseValue (f + 1) (d + 1) ('[' :: ']' :: rest) = some (.array [], rest) := by
  simp [parseValue, skipSpace, isSpace]

theorem parseValue_object_nil (f d : Nat) (rest : List Char) :
    parseValue (f + 1) (d + 1) ('{' :: '}' :: rest) = some (.object [], rest) := by
  simp [parseValue, skipSpace, isSpace]

theorem parseValue_array_cons (f d : Nat) (c : Char) (r : List Char) (hsp : isSpace c = false)
    (hd : c ≠ ']') :
    parseValue (f + 1) (d + 1) ('[' :: c :: r) =
      (parseElems f d (c :: r)).map (fun p => (JSONValue.array p.1, p.2)) := by
  have h1 : isSpace '[' = false := by decide
  simp [parseValue, skipSpace, h1, hsp, hd]

theorem parseValue_object_cons (f d : Nat) (c : Char) (r : List Char)
    (hsp : isSpace c = false) (hd : c ≠ '}') :
    parseValue (f + 1) (d + 1) ('{' :: c :: r) =
      (parseMembers f d (c :: r)).map (fun p => (JSONValue.object p.1, p.2)) := by
  have h1 : isSpace '{' = false := by decide
  simp [parseValue, skipSpace, h1, hsp, hd]

theorem parseElems_last (f d : Nat) (cs : List Char) (v : JSONValue) (r : List Char)
    (hv : parseValue f d cs = some (v, ']' :: r)) :
    parseElems (f + 1) d cs = some ([v], r) := by
  simp [parseElems, hv, skipSpace, isSpace]

theorem parseElems_more (f d : Nat) (cs : List Char) (v : JSONValue) (r : List Char)
    (hv : parseValue f d cs = some (v, ',' :: r)) :
    parseElems (f + 1) d cs = (parseElems f d r).map (fun p => (v :: p.1, p.2)) := by
  simp [parseElems, hv, skipSpace, isSpace]

theorem parseMembers_last (f d : Nat) (k : String) (cs : List Char) (v : JSONValue)
    (r : List Char) (hv : parseValue f d cs = some (v, '}' :: r)) :
    parseMembers (f + 1) d (encodeString k ++ ':' :: cs) = some ([(k, v)], r) := by
  have h := unquoteBody_encodeChars k.data
    ((encodeChars k.data).length + (cs.length + 1 + 1) + 1) (':' :: cs) (by
      have := encodeChars_length k.data
      omega)
  simp only [encodeString, List.cons_append, List.append_assoc, List.nil_append]
  simp [parseMembers, h, skipSpace, isSpace, hv]

theorem parseMembers_more (f d : Nat) (k : String) (cs : List Char) (v : JSONValue)
    (c : Char) (r : List Char) (hsp : isSpace c = false)
    (hv : parseValue f d cs = some (v, ',' :: c :: r)) :
    parseMembers (f + 1) d (encodeString k ++ ':' :: cs) =
      (parseMembers f d (c :: r)).map (fun p => ((k, v) :: p.1, p.2)) := by
  have h := unquoteBody_encodeChars k.data
    ((encodeChars k.data).length + (cs.length + 1 + 1) + 1) (':' :: cs) (by
      have := encodeChars_length k.data
      omega)
  simp only [encodeString, List.cons_append, List.append_assoc, List.nil_append]
  have h1 : isSpace ':' = false := by decide
  have h2 : isSpace ',' = false := by decide
  simp [parseMembers, h, skipSpace, h1, h2, hv, hsp]


theorem encodeElems_head (x : JSONValue) (xs : List JSONValue) (hw : wfValue x) :
    ∃ c l, encodeElems (x :: xs) = c :: l ∧ ValueHead c := by
  obtain ⟨c, l, hcl, hc⟩ := encodeValue_head x hw
  cases xs with
  | nil => exact ⟨c, l, by simp [encodeElems, hcl], hc⟩
  | cons y r => exact ⟨c, _, by simp only [encodeElems, hcl, List.cons_append]; rfl, hc⟩

theorem encodeMembers_head (kv : String × JSONValue) (kvs : List (String × JSONValue)) :
    ∃ l, encodeMembers (kv :: kvs) = '"' :: l := by
  cases kvs with
  | nil => exact ⟨_, by simp only [encodeMembers, encodeString, List.cons_append]; rfl⟩
  | cons y r => exact ⟨_, by simp only [encodeMembers, encodeString, List.cons_append]; rfl⟩

theorem mapSet_fresh (acc : List (String × JSONValue)) (kv : String × JSONValue)
    (h : kv.1 ∉ acc.map Prod.fst) : mapSet acc kv = acc ++ [kv] := by
  unfold mapSet
  have : acc.any (fun e => e.1 == kv.1) = false := by
    rw [Bool.eq_false_iff]
    intro hany
    rw [List.any_eq_true] at hany
    obtain ⟨e, he, hek⟩ := hany
    apply h
    rw [← beq_iff_eq.1 hek]
    exact List.mem_map.2 ⟨e, he, rfl⟩
  simp [this]

theorem foldl_mapSet_nodup (kvs acc : List (String × JSONValue))
    (h : ((acc ++ kvs).map Prod.fst).Nodup) : kvs.foldl mapSet acc = acc ++ kvs := by
  induction kvs generalizing acc with
  | nil => simp
  | cons kv t ih =>
    have hfresh : kv.1 ∉ acc.map Prod.fst := by
      intro hmem
      rw [List.map_append, List.map_cons] at h
      have := (List.nodup_append.1 h).2.2
      exact this hmem (List.mem_cons_self _ _)
    rw [List.foldl_cons, mapSet_fresh acc kv hfresh, ih]
    · simp
    · simpa using h

mutual
theorem parseValue_encode : ∀ (v : JSONValue), wfValue v → ∀ fuel, cost v ≤ fuel →
    ∀ d, depth v ≤ d →
    ∀ rest, Stops rest → parseValue fuel d (encodeValue v ++ rest) = some (v, rest)
  | .null, _, fuel, hf, d, _, rest, _ => by
    cases fuel with
    | zero => simp [cost] at hf
    | succ f => exact parseValue_null f d rest
  | .bool true, _, fuel, hf, d, _, rest, _ => by
    cases fuel with
    | zero => simp [cost] at hf
    | succ f => exact parseValue_true f d rest
  | .bool false, _, fuel, hf, d, _, rest, _ => by
    cases fuel with
    | zero => simp [cost] at hf
    | succ f => exact parseValue_false f d rest
  | .number lit, hw, fuel, hf, d, _, rest, hs => by
    cases fuel with
    | zero => simp [cost] at hf
    | succ f =>
      simp only [encodeValue]
      exact parseValue_number f d lit rest (wf_number_scan lit hw) hs
  | .string s, _, fuel, hf, d, _, rest, _ => by
    cases fuel with
    | zero => simp [cost] at hf
    | succ f =>
      simp only [encodeValue]
      exact parseValue_string f d s rest
  | .array xs, hw, fuel, hf, d, hd, rest, _ => by
    cases fuel with
    | zero => simp [cost] at hf
    | succ f =>
      cases d with
      | zero => simp [depth] at hd
      | succ d =>
        cases xs with
        | nil =>
          simp only [encodeValue, encodeElems, List.nil_append, List.cons_append]
          exact parseValue_array_nil f d rest
        | cons x xs =>
          simp only [wfValue] at hw
          have hc : costElems (x :: xs) ≤ f := by
            simp only [cost] at hf
            omega
          have hd' : depthElems (x :: xs) ≤ d := by
            simp only [depth] at hd
            omega
          have ih := parseElems_encode (x :: xs) (by simp) hw f hc d hd' rest
          obtain ⟨c, l, hcl, hvh⟩ := encodeElems_head x xs (by
            simp only [wfElems] at hw
            exact hw.1)
          simp only [encodeValue, List.cons_append, List.append_assoc, List.nil_append]
          rw [hcl] at ih ⊢
          simp only [List.cons_append] at ih ⊢
          rw [parseValue_array_cons f d c _ hvh.1 hvh.2.1, ih]
          rfl
  | .object kvs, hw, fuel, hf, d, hd, rest, _ => by
    cases fuel with
    | zero => simp [cost] at hf
    | succ f =>
      cases d with
      | zero => simp [depth] at hd
      | succ d =>
        cases kvs with
        | nil =>
          simp only [encodeValue, encodeMembers, List.nil_append, List.cons_append]
          exact parseValue_object_nil f d rest
        | cons kv kvs =>
          simp only [wfValue] at hw
          have hc : costMembers (kv :: kvs) ≤ f := by
            simp only [cost] at hf
            omega
          have hd' : depthMembers (kv :: kvs) ≤ d := by
            simp only [depth] at hd
            omega
          have ih := parseMembers_encode (kv :: kvs) (by simp) hw.1 f hc d hd' rest
          obtain ⟨l, hl⟩ := encodeMembers_head kv kvs
          simp only [encodeValue, List.cons_append, List.append_assoc, List.nil_append]
          rw [hl] at ih ⊢
          simp only [List.cons_append] at ih ⊢
          rw [parseValue_object_cons f d '"' _ (by decide) (by decide), ih]
          rfl
theorem parseElems_encode : ∀ (xs : List JSONValue), xs ≠ [] → wfElems xs →
    ∀ fuel, costElems xs ≤ fuel → ∀ d, depthElems xs ≤ d →
    ∀ rest, parseElems fuel d (encodeElems xs ++ ']' :: rest) = some (xs, rest)
  | [], h, _, _, _, _, _, _ => absurd rfl h
  | [x], _, hw, fuel, hf, d, hd, rest => by
    cases fuel with
    | zero => simp [costElems] at hf
    | succ f =>
      simp only [wfElems] at hw
      have hc : cost x ≤ f := by
        simp only [costElems] at hf
        omega
      have hd' : depth x ≤ d := by
        simp only [depthElems] at hd
        omega
      have ih := parseValue_encode x hw.1 f hc d hd' (']' :: rest) (stops_cons _ _ (by simp))
      simp only [encodeElems]
      exact parseElems_last f d _ x rest ih
  | x :: y :: r, _, hw, fuel, hf, d, hd, rest => by
    cases fuel with
    | zero => simp [costElems] at hf
    | succ f =>
      simp only [wfElems] at hw
      have hc : cost x ≤ f ∧ costElems (y :: r) ≤ f := by
        simp only [costElems] at hf ⊢
        omega
      have hd' : depth x ≤ d ∧ depthElems (y :: r) ≤ d := by
        simp only [depthElems] at hd ⊢
        omega
      have ih1 := parseValue_encode x hw.1 f hc.1 d hd'.1
        (',' :: (encodeElems (y :: r) ++ ']' :: rest)) (stops_cons _ _ (by simp))
      have ih2 := parseElems_encode (y :: r) (by simp) (by simpa [wfElems] using hw.2) f hc.2
        d hd'.2 rest
      simp only [encodeElems, List.append_assoc, List.cons_append]
      rw [parseElems_more f d _ x _ ih1, ih2]
      rfl
theorem parseMembers_encode : ∀ (kvs : List (String × JSONValue)), kvs ≠ [] →
    wfMembers kvs → ∀ fuel, costMembers kvs ≤ fuel → ∀ d, depthMembers kvs ≤ d →
    ∀ rest, parseMembers fuel d (encodeMembers kvs ++ '}' :: rest) = some (kvs, rest)
  | [], h, _, _, _, _, _, _ => absurd rfl h
  | [kv], _, hw, fuel, hf, d, hd, rest => by
    cases fuel with
    | zero => simp [costMembers] at hf
    | succ f =>
      simp only [wfMembers] at hw
      have hc : cost kv.2 ≤ f := by
        simp only [costMembers] at hf
        omega
      have hd' : depth kv.2 ≤ d := by
        simp only [depthMembers] at hd
        omega
      have ih := parseValue_encode kv.2 hw.1 f hc d hd' ('}' :: rest)
        (stops_cons _ _ (by simp))
      simp only [encodeMembers, List.append_assoc, List.cons_append]
      exact parseMembers_last f d kv.1 _ kv.2 rest ih
  | kv :: kw :: r, _, hw, fuel, hf, d, hd, rest => by
    cases fuel with
    | zero => simp [costMembers] at hf
    | succ f =>
      simp only [wfMembers] at hw
      have hc : cost kv.2 ≤ f ∧ costMembers (kw :: r) ≤ f := by
        simp only [costMembers] at hf ⊢
        omega
      have hd' : depth kv.2 ≤ d ∧ depthMembers (kw :: r) ≤ d := by
        simp only [depthMembers] at hd ⊢
        omega
      obtain ⟨l, hl⟩ := encodeMembers_head kw r
      have ih1 := parseValue_encode kv.2 hw.1 f hc.1 d hd'.1
        (',' :: (encodeMembers (kw :: r) ++ '}' :: rest)) (stops_cons _ _ (by simp))
      have ih2 := parseMembers_encode (kw :: r) (by simp) (by simpa [wfMembers] using hw.2) f
        hc.2 d hd'.2 rest
      simp only [encodeMembers, List.append_assoc, List.cons_append]
      rw [hl] at ih1 ih2
      simp only [List.cons_append] at ih1 ih2
      rw [hl]
      simp only [List.cons_append]
      rw [parseMembers_more f d kv.1 _ kv.2 '"' _ (by decide) ih1, ih2]
      rfl
end


mutual
theorem cost_le : ∀ (v : JSONValue), cost v ≤ 2 * (encodeValue v).length + 1
  | .null => by simp [cost]
  | .bool _ => by simp [cost]
  | .number _ => by simp [cost]
  | .string _ => by simp [cost]
  | .array xs => by
    have := costElems_le xs
    simp only [cost, encodeValue, List.length_cons, List.length_append, List.length_nil]
    omega
  | .object kvs => by
    have := costMembers_le kvs
    simp only [cost, encodeValue, List.length_cons, List.length_append, List.length_nil]
    omega
theorem costElems_le : ∀ (xs : List JSONValue),
    costElems xs ≤ 2 * (encodeElems xs).length + 2
  | [] => by simp [costElems]
  | [x] => by
    have := cost_le x
    simp only [costElems, encodeElems]
    omega
  | x :: y :: r => by
    have h1 := cost_le x
    have h2 := costElems_le (y :: r)
    simp only [costElems, encodeElems, List.length_cons, List.length_append] at h2 ⊢
    omega
theorem costMembers_le : ∀ (kvs : List (String × JSONValue)),
    costMembers kvs ≤ 2 * (encodeMembers kvs).length + 2
  | [] => by simp [costMembers]
  | [kv] => by
    have := cost_le kv.2
    simp only [costMembers, encodeMembers, List.length_cons, List.length_append]
    omega
  | kv :: kw :: r => by
    have h1 := cost_le kv.2
    have h2 := costMembers_le (kw :: r)
    simp only [costMembers, encodeMembers, List.length_cons, List.length_append] at h2 ⊢
    omega
end

/-- The decoder reads the compact text of a value that Go can hold, nested no
deeper than the scanner allows, as that value. -/
theorem parseJSON_encode (v : JSONValue) (hw : wfValue v) (hd : depth v ≤ maxNestingDepth) :
    parseJSON (encodeValue v) = some v := by
  have h := parseValue_encode v hw (2 * (encodeValue v).length + 2)
    (by have := cost_le v; omega) maxNestingDepth hd [] stops_nil
  rw [List.append_nil] at h
  simp [parseJSON, h, skipSpace]

/-! ## What the decoder stores -/

mutual
theorem toInterface_wf : ∀ (v : JSONValue), wfValue v → toInterface v = v
  | .null, _ => by simp [toInterface]
  | .bool _, _ => by simp [toInterface]
  | .number lit, hw => by simp [toInterface, wf_number_finite lit hw]
  | .string _, _ => by simp [toInterface]
  | .array xs, hw => by
    simp only [wfValue] at hw
    simp only [toInterface, toInterfaceElems_wf xs hw]
  | .object kvs, hw => by
    simp only [wfValue] at hw
    simp only [toInterface, toInterfaceMembers_wf kvs hw.1]
    rw [foldl_mapSet_nodup kvs [] (by simpa using hw.2)]
    rfl
theorem toInterfaceElems_wf : ∀ (xs : List JSONValue), wfElems xs → toInterfaceElems xs = xs
  | [], _ => by simp [toInterfaceElems]
  | x :: xs, hw => by
    simp only [wfElems] at hw
    simp only [toInterfaceElems, toInterface_wf x hw.1, toInterfaceElems_wf xs hw.2]
theorem toInterfaceMembers_wf : ∀ (kvs : List (String × JSONValue)), wfMembers kvs →
    toInterfaceMembers kvs = kvs
  | [], _ => by simp [toInterfaceMembers]
  | kv :: rest, hw => by
    simp only [wfMembers] at hw
    simp only [toInterfaceMembers, toInterface_wf kv.2 hw.1, toInterfaceMembers_wf rest hw.2]
end

mutual
theorem firstOverflow_wf : ∀ (v : JSONValue), wfValue v → firstOverflow v = none
  | .null, _ => by simp [firstOverflow]
  | .bool _, _ => by simp [firstOverflow]
  | .number lit, hw => by simp [firstOverflow, wf_number_finite lit hw]
  | .string _, _ => by simp [firstOverflow]
  | .array xs, hw => by
    simp only [wfValue] at hw
    simp only [firstOverflow, firstOverflowElems_wf xs hw]
  | .object kvs, hw => by
    simp only [wfValue] at hw
    simp only [firstOverflow, firstOverflowMembers_wf kvs hw.1]
theorem firstOverflowElems_wf : ∀ (xs : List JSONValue), wfElems xs →
    firstOverflowElems xs = none
  | [], _ => by simp [firstOverflowElems]
  | x :: xs, hw => by
    simp only [wfElems] at hw
    simp only [firstOverflowElems, firstOverflow_wf x hw.1, firstOverflowElems_wf xs hw.2]
theorem firstOverflowMembers_wf : ∀ (kvs : List (String × JSONValue)), wfMembers kvs →
    firstOverflowMembers kvs = none
  | [], _ => by simp [firstOverflowMembers]
  | kv :: rest, hw => by
    simp only [wfMembers] at hw
    simp only [firstOverflowMembers, firstOverflow_wf kv.2 hw.1,
      firstOverflowMembers_wf rest hw.2]
end

/-! ## The order in which the serialization lists a map -/

theorem wfMembers_iff (kvs : List (String × JSONValue)) :
    wfMembers kvs ↔ ∀ kv ∈ kvs, wfValue kv.2 := by
  induction kvs with
  | nil => simp [wfMembers]
  | cons kv t ih => simp [wfMembers, ih]

theorem depthMembers_le_iff (kvs : List (String × JSONValue)) (d : Nat) :
    depthMembers kvs ≤ d ↔ ∀ kv ∈ kvs, depth kv.2 ≤ d := by
  induction kvs with
  | nil => simp [depthMembers]
  | cons kv t ih => simp [depthMembers, ih]

theorem sortMembers_perm (kvs : List (String × JSONValue)) : (sortMembers kvs).Perm kvs :=
  List.perm_insertionSort _ kvs

theorem canonMembers_keys (kvs : List (String × JSONValue)) :
    (canonMembers kvs).map Prod.fst = kvs.map Prod.fst := by
  induction kvs with
  | nil => simp [canonMembers]
  | cons kv t ih => simp [canonMembers, ih]

theorem canonMembers_length (kvs : List (String × JSONValue)) :
    (canonMembers kvs).length = kvs.length := by
  induction kvs with
  | nil => simp [canonMembers]
  | cons kv t ih => simp [canonMembers, ih]

theorem mem_canonMembers (kvs : List (String × JSONValue)) (kv : String × JSONValue)
    (h : kv ∈ kvs) : (kv.1, canon kv.2) ∈ canonMembers kvs := by
  induction kvs with
  | nil => simp at h
  | cons x t ih =>
    simp only [canonMembers, List.mem_cons]
    rcases List.mem_cons.1 h with e | e
    · left; rw [e]
    · right; exact ih e

theorem canonMembers_ne_nil (kvs : List (String × JSONValue)) (h : kvs ≠ []) :
    sortMembers (canonMembers kvs) ≠ [] := by
  intro e
  have := (sortMembers_perm (canonMembers kvs)).length_eq
  rw [e, canonMembers_length] at this
  exact h (List.length_eq_zero.1 this.symm)

mutual
theorem wf_canon : ∀ (v : JSONValue), wfValue v → wfValue (canon v)
  | .null, _ => by simp [canon, wfValue]
  | .bool _, _ => by simp [canon, wfValue]
  | .number lit, hw => by simpa [canon] using hw
  | .string _, _ => by simp [canon, wfValue]
  | .array xs, hw => by
    simp only [wfValue] at hw
    simp only [canon, wfValue]
    exact wfElems_canon xs hw
  | .object kvs, hw => by
    simp only [wfValue] at hw
    simp only [canon, wfValue]
    constructor
    · rw [wfMembers_iff]
      intro kv hkv
      exact (wfMembers_iff _).1 (wfMembers_canon kvs hw.1) kv
        ((sortMembers_perm _).mem_iff.1 hkv)
    · have hp := (sortMembers_perm (canonMembers kvs)).map Prod.fst
      rw [hp.nodup_iff, canonMembers_keys]
      exact hw.2
theorem wfElems_canon : ∀ (xs : List JSONValue), wfElems xs → wfElems (canonElems xs)
  | [], _ => by simp [canonElems, wfElems]
  | x :: xs, hw => by
    simp only [wfElems] at hw
    simp only [canonElems, wfElems]
    exact ⟨wf_canon x hw.1, wfElems_canon xs hw.2⟩
theorem wfMembers_canon : ∀ (kvs : List (String × JSONValue)), wfMembers kvs →
    wfMembers (canonMembers kvs)
  | [], _ => by simp [canonMembers, wfMembers]
  | kv :: rest, hw => by
    simp only [wfMembers] at hw
    simp only [canonMembers, wfMembers]
    exact ⟨wf_canon kv.2 hw.1, wfMembers_canon rest hw.2⟩
end

mutual
theorem depth_canon : ∀ (v : JSONValue) (d : Nat), depth v ≤ d → depth (canon v) ≤ d
  | .null, d, _ => by simp [canon, depth]
  | .bool _, d, _ => by simp [canon, depth]
  | .number _, d, _ => by simp [canon, depth]
  | .string _, d, _ => by simp [canon, depth]
  | .array xs, d, h => by
    cases d with
    | zero => simp [depth] at h
    | succ d =>
      simp only [depth] at h
      have := depthElems_canon xs d (by omega)
      simp only [canon, depth]
      omega
  | .object kvs, d, h => by
    cases d with
    | zero => simp [depth] at h
    | succ d =>
      simp only [depth] at h
      have h1 := depthMembers_canon kvs d (by omega)
      have h2 : depthMembers (sortMembers (canonMembers kvs)) ≤ d := by
        rw [depthMembers_le_iff] at h1 ⊢
        intro kv hkv
        exact h1 kv ((sortMembers_perm _).mem_iff.1 hkv)
      simp only [canon, depth]
      omega
theorem depthElems_canon : ∀ (xs : List JSONValue) (d : Nat), depthElems xs ≤ d →
    depthElems (canonElems xs) ≤ d
  | [], d, _ => by simp [canonElems, depthElems]
  | x :: xs, d, h => by
    simp only [depthElems] at h
    have h1 := depth_canon x d (by omega)
    have h2 := depthElems_canon xs d (by omega)
    simp only [canonElems, depthElems]
    omega
theorem depthMembers_canon : ∀ (kvs : List (String × JSONValue)) (d : Nat),
    depthMembers kvs ≤ d → depthMembers (canonMembers kvs) ≤ d
  | [], d, _ => by simp [canonMembers, depthMembers]
  | kv :: rest, d, h => by
    simp only [depthMembers] at h
    have h1 := depth_canon kv.2 d (by omega)
    have h2 := depthMembers_canon rest d (by omega)
    simp only [canonMembers, depthMembers]
    omega
end

mutual
/-- Listing every map by its keys leaves the value what it is. -/
theorem sameValue_canon : ∀ (v : JSONValue), sameValue v (canon v)
  | .null => by simp [canon, sameValue]
  | .bool _ => by simp [canon, sameValue]
  | .number _ => by simp [canon, sameValue]
  | .string _ => by simp [canon, sameValue]
  | .array xs => by
    simp only [canon, sameValue]
    exact ⟨_, rfl, sameElems_canon xs⟩
  | .object kvs => by
    simp only [canon, sameValue]
    refine ⟨_, rfl, ?_, ?_⟩
    · rw [(sortMembers_perm _).length_eq, canonMembers_length]
    · apply sameMembers_canon
      intro kv hkv
      exact (sortMembers_perm _).mem_iff.2 (mem_canonMembers kvs kv hkv)
theorem sameElems_canon : ∀ (xs : List JSONValue), sameElems xs (canonElems xs)
  | [] => by simp [canonElems, sameElems]
  | x :: xs => by
    simp only [canonElems, sameElems]
    exact ⟨_, _, rfl, sameValue_canon x, sameElems_canon xs⟩
theorem sameMembers_canon : ∀ (kvs kws : List (String × JSONValue)),
    (∀ kv ∈ kvs, (kv.1, canon kv.2) ∈ kws) → sameMembers kvs kws
  | [], _, _ => by simp [sameMembers]
  | kv :: rest, kws, h => by
    simp only [sameMembers]
    exact ⟨⟨_, h kv (List.mem_cons_self _ _), sameValue_canon kv.2⟩,
      sameMembers_canon rest kws (fun x hx => h x (List.mem_cons_of_mem _ hx))⟩
end


/-! ## Nesting beyond the scanner's limit -/

theorem parseValue_noDepth (f : Nat) (rest : List Char) :
    parseValue f 0 ('[' :: rest) = none := by
  cases f with
  | zero => simp [parseValue]
  | succ f => simp [parseValue, skipSpace, isSpace]

theorem nestedArray_head (n : Nat) : ∃ l, encodeValue (nestedArray n) = '[' :: l := by
  cases n with
  | zero => exact ⟨_, by simp only [nestedArray, encodeValue, encodeElems]; rfl⟩
  | succ n =>
    exact ⟨encodeElems [nestedArray n] ++ [']'], by simp only [nestedArray, encodeValue]⟩

/-- Arrays nested deeper than the levels left are rejected, whatever the bound
on the nested calls. -/
theorem parseValue_nested (n : Nat) : ∀ (f d : Nat) (rest : List Char), d ≤ n →
    parseValue f d (encodeValue (nestedArray n) ++ rest) = none := by
  induction n with
  | zero =>
    intro f d rest hd
    have hd0 : d = 0 := by omega
    subst hd0
    simp only [nestedArray, encodeValue, encodeElems, List.nil_append, List.cons_append]
    exact parseValue_noDepth f _
  | succ n ih =>
    intro f d rest hd
    cases d with
    | zero =>
      simp only [nestedArray, encodeValue, List.cons_append]
      exact parseValue_noDepth f _
    | succ d =>
      cases f with
      | zero => simp [parseValue]
      | succ f =>
        obtain ⟨l, hl⟩ := nestedArray_head n
        have ih' := fun g => ih g d (']' :: rest) (by omega)
        simp only [nestedArray, encodeValue, encodeElems, List.cons_append, List.append_assoc,
          List.nil_append]
        rw [hl] at ih' ⊢
        simp only [List.cons_append] at ih' ⊢
        rw [parseValue_array_cons f d '[' _ (by decide) (by decide)]
        cases f with
        | zero => simp [parseElems]
        | succ f => simp [parseElems, ih' f]

theorem parseMembers_value_fails (f d : Nat) (k : String) (cs : List Char)
    (h : ∀ g, parseValue g d cs = none) :
    parseMembers f d (encodeString k ++ ':' :: cs) = none := by
  cases f with
  | zero => simp [parseMembers]
  | succ f =>
    have hu := unquoteBody_encodeChars k.data
      ((encodeChars k.data).length + (cs.length + 1 + 1) + 1) (':' :: cs) (by
        have := encodeChars_length k.data
        omega)
    simp only [encodeString, List.cons_append, List.append_assoc, List.nil_append]
    simp [parseMembers, hu, skipSpace, isSpace, h f]

theorem canon_nestedArray (n : Nat) : canon (nestedArray n) = nestedArray n := by
  induction n with
  | zero => simp [nestedArray, canon, canonElems]
  | succ n ih => simp [nestedArray, canon, canonElems, ih]

theorem wf_nestedArray (n : Nat) : wfValue (nestedArray n) := by
  induction n with
  | zero => simp [nestedArray, wfValue, wfElems]
  | succ n ih => simp [nestedArray, wfValue, wfElems, ih]

theorem depth_nestedArray (n : Nat) : depth (nestedArray n) = n + 1 := by
  induction n with
  | zero => simp [nestedArray, depth, depthElems]
  | succ n ih =>
    simp only [nestedArray, depth, depthElems, ih]
    omega

theorem wf_single (k : String) (v : JSONValue) (h : wfValue v) :
    wfValue (.object [(k, v)]) := by
  simp only [wfValue, wfMembers, List.map_cons, List.map_nil, and_true]
  exact ⟨h, List.nodup_singleton _⟩

theorem depth_single (k : String) (v : JSONValue) : depth (.object [(k, v)]) = depth v + 1 := by
  simp only [depth, depthMembers]
  omega

theorem marshal_single_nested (k : String) (n : Nat) :
    Marshal [(k, nestedArray n)] =
      '{' :: (encodeString k ++ ':' :: (encodeValue (nestedArray n) ++ ['}'])) := by
  simp [Marshal, canon, canonMembers, canon_nestedArray, sortMembers, encodeValue,
    encodeMembers]

/-- A map whose value nests arrays as deep as the scanner allows is one level
too deep as a whole: its serialization is rejected. -/
theorem parseJSON_nested (k : String) (n : Nat) (h : maxNestingDepth ≤ n + 1) :
    parseJSON (Marshal [(k, nestedArray n)]) = none := by
  have hv : ∀ g, parseValue g (maxNestingDepth - 1) (encodeValue (nestedArray n) ++ ['}']) =
      none := fun g => parseValue_nested n g _ _ (by omega)
  have hm := fun g => parseMembers_value_fails g (maxNestingDepth - 1) k _ hv
  have hd : maxNestingDepth = (maxNestingDepth - 1) + 1 := by decide
  rw [marshal_single_nested]
  unfold parseJSON
  rw [hd]
  simp only [encodeString, List.cons_append] at hm ⊢
  have e : ∀ m : Nat, 2 * (m + 1) + 2 = (2 * m + 3) + 1 := fun m => by omega
  simp only [List.length_cons, e]
  rw [parseValue_object_cons _ _ '"' _ (by decide) (by decide), hm]
  rfl

/-- C5, as amended: for a map `M` with at least one key, whose maps have no key
twice, whose numbers are texts of finite `float64` numbers and whose slices and
maps nest at most `maxNestingDepth` = 10000 deep, counting `M` itself, and a
response of any status and headers whose body is the JSON serialization of `M`,
`GetBodyJSON` returns no error and the map `M`, listed in the order of its
keys as the serialization wrote it: a map equal to `M`, and `M` itself when `M`
is listed in that order. -/
theorem C5_decodes_serialization (M : List (String × JSONValue)) (status : Nat)
    (header : Header) (hne : M ≠ []) (hw : wfValue (.object M))
    (hd : depth (.object M) ≤ maxNestingDepth) :
    GetBodyJSON (some ⟨status, header, Marshal M⟩) =
        (some (sortMembers (canonMembers M)), none) ∧
      sameValue (.object M) (.object (sortMembers (canonMembers M))) ∧
      wfValue (.object (sortMembers (canonMembers M))) ∧
      (canon (.object M) = .object M →
        GetBodyJSON (some ⟨status, header, Marshal M⟩) = (some M, none)) := by
  have hc : canon (.object M) = .object (sortMembers (canonMembers M)) := by
    simp only [canon]
  have hwc : wfValue (.object (sortMembers (canonMembers M))) := by
    rw [← hc]
    exact wf_canon _ hw
  have hp : parseJSON (Marshal M) = some (.object (sortMembers (canonMembers M))) := by
    unfold Marshal
    rw [parseJSON_encode _ (wf_canon _ hw) (depth_canon _ _ hd), hc]
  have hwm : wfMembers (sortMembers (canonMembers M)) := by
    simp only [wfValue] at hwc
    exact hwc.1
  have hst : (toInterfaceMembers (sortMembers (canonMembers M))).foldl mapSet [] =
      sortMembers (canonMembers M) := by
    have := toInterface_wf _ hwc
    simp only [toInterface, JSONValue.object.injEq] at this
    exact this
  have hg : GetBodyJSON (some ⟨status, header, Marshal M⟩) =
      (some (sortMembers (canonMembers M)), none) := by
    rw [getBodyJSON_object ⟨status, header, Marshal M⟩ _ hp (firstOverflowMembers_wf _ hwm),
      hst, if_neg]
    intro hl
    exact canonMembers_ne_nil M hne (List.length_eq_zero.1 hl)
  refine ⟨hg, ?_, hwc, ?_⟩
  · rw [← hc]
    exact sameValue_canon _
  · intro hs
    rw [hc, JSONValue.object.injEq] at hs
    rw [hg, hs]

theorem C5_decodes_serialization_witness :
    Marshal [("b", .string "x\n"), ("a", .number ['-', '1', '2', '.', '5', '0', 'e', '-', '3']),
        ("c", .array [.null, .object [("e", .bool true), ("d", .null)]])] =
      "\x7b\"a\":-12.50e-3,\"b\":\"x\\n\",\"c\":[null,\x7b\"d\":null,\"e\":true\x7d]\x7d".toList ∧
    sortMembers (canonMembers
        [("b", .string "x\n"), ("a", .number ['-', '1', '2', '.', '5', '0', 'e', '-', '3']),
          ("c", .array [.null, .object [("e", .bool true), ("d", .null)]])]) =
      [("a", .number ['-', '1', '2', '.', '5', '0', 'e', '-', '3']), ("b", .string "x\n"),
        ("c", .array [.null, .object [("d", .null), ("e", .bool true)]])] ∧
    GetBodyJSON (some ⟨500, emptyStore,
        Marshal [("b", .string "x\n"), ("a", .number ['-', '1', '2', '.', '5', '0', 'e', '-', '3']),
          ("c", .array [.null, .object [("e", .bool true), ("d", .null)]])]⟩) =
      (some (sortMembers (canonMembers
        [("b", .string "x\n"), ("a", .number ['-', '1', '2', '.', '5', '0', 'e', '-', '3']),
          ("c", .array [.null, .object [("e", .bool true), ("d", .null)]])])), none) :=
  ⟨by decide, rfl,
    (C5_decodes_serialization _ 500 emptyStore (by simp) (by
      simp only [wfValue, wfMembers, wfElems, List.map_cons, List.map_nil, and_true, true_and]
      exact ⟨⟨⟨⟨true, 12, [5, 0], some (-3)⟩, finite_of_small _ (by decide) (by decide),
        by decide⟩, by decide⟩, by decide⟩) (by
      simp only [depth, depthMembers, depthElems]
      decide)).1⟩

/-- C5 as stated fails: the map with the one key `a` whose value is 10000
arrays nested in each other has a key and no number, and its serialization is a
JSON text (a scanner allowing one level more reads it back), yet `GetBodyJSON`
rejects the text with the parser's error, because the map and the arrays nest
10001 deep and the scanner allows 10000 levels. -/
theorem C5_counterexample :
    [("a", nestedArray 9999)] ≠ [] ∧
    wfValue (.object [("a", nestedArray 9999)]) ∧
    depth (.object [("a", nestedArray 9999)]) = maxNestingDepth + 1 ∧
    (∃ fuel, parseValue fuel (maxNestingDepth + 1) (Marshal [("a", nestedArray 9999)]) =
      some (.object [("a", nestedArray 9999)], [])) ∧
    GetBodyJSON (some ⟨200, emptyStore, Marshal [("a", nestedArray 9999)]⟩) =
      (none, some Error.jsonSyntax) := by
  have hw : wfValue (.object [("a", nestedArray 9999)]) :=
    wf_single _ _ (wf_nestedArray 9999)
  have hdep : depth (.object [("a", nestedArray 9999)]) = maxNestingDepth + 1 := by
    rw [depth_single, depth_nestedArray]
    rfl
  refine ⟨by simp, hw, hdep, ?_, ?_⟩
  · have hm : Marshal [("a", nestedArray 9999)] =
        encodeValue (.object [("a", nestedArray 9999)]) := by
      rw [marshal_single_nested]
      simp only [encodeValue, encodeMembers, List.append_assoc, List.cons_append]
    refine ⟨cost (.object [("a", nestedArray 9999)]), ?_⟩
    have := parseValue_encode _ hw _ (Nat.le_refl _) (maxNestingDepth + 1) (by rw [hdep]) []
      stops_nil
    rw [List.append_nil] at this
    rw [hm]
    exact this
  · exact getBodyJSON_invalid _ (parseJSON_nested "a" 9999 (by decide))


/-! ## The embedded library calls on examples -/

/-- The host is kept as given; the resty client holds it without its trailing
slashes. -/
theorem new_hostURL :
    (New "https://api.example///" true).GetHost = "https://api.example///" ∧
    (New "https://api.example///" true).GetRestyClient.HostURL = "https://api.example" ∧
    (New "https://api.example///" true).GetRestyClient.trace = true ∧
    (New "https://api.example" false).GetRestyClient.trace = false := by
  decide

set_option exponentiation.threshold 2000 in
/-- The range of `float64` ends between 1.797693134862315807e308 and
1.797693134862315808e308; zero and numbers that round to zero are in it. -/
theorem floatOverflows_boundary :
    floatOverflows "1.7976931348623157e308".toList = false ∧
    floatOverflows "1.797693134862315807e308".toList = false ∧
    floatOverflows "1.797693134862315808e308".toList = true ∧
    floatOverflows "-1e400".toList = true ∧
    floatOverflows "0e999".toList = false ∧
    floatOverflows "1e-999".toList = false := by
  decide

set_option exponentiation.threshold 2000 in
/-- A number out of the range of `float64` inside an object is the decoder's
type error, and `GetBodyJSON` returns it with a nil map. -/
theorem getBodyJSON_range_error :
    Unmarshal "\x7b\"a\":1e999,\"b\":2\x7d".toList =
      (some [("a", .null), ("b", .number ['2'])],
        some (Error.jsonUnmarshalType "number 1e999")) ∧
    GetBodyJSON (some ⟨200, emptyStore, "\x7b\"a\":1e999,\"b\":2\x7d".toList⟩) =
      (none, some (Error.jsonUnmarshalType "number 1e999")) :=
  ⟨rfl, rfl⟩

set_option exponentiation.threshold 2000 in
/-- A key given twice is stored once, with the later value. -/
theorem unmarshal_duplicate_key :
    Unmarshal "\x7b\"a\":1,\"b\":2,\"a\":3\x7d".toList =
      (some [("a", .number ['3']), ("b", .number ['2'])], none) :=
  rfl


/-! ## The bound on nested calls never cuts a parse short -/

theorem skipSpace_length_le (cs : List Char) : (skipSpace cs).length ≤ cs.length := by
  induction cs with
  | nil => simp [skipSpace]
  | cons c cs ih =>
    by_cases h : isSpace c = true
    · simp only [skipSpace, h, if_true, List.length_cons]; omega
    · simp [skipSpace, h]

theorem takeDigits_length (cs : List Char) : (takeDigits cs).2.length ≤ cs.length := by
  induction cs with
  | nil => simp [takeDigits]
  | cons c cs ih =>
    by_cases h : isDigit c = true
    · simp only [takeDigits, h, if_true, List.length_cons]; omega
    · simp [takeDigits, h]

theorem scanSign_length (cs : List Char) : (scanSign cs).2.length ≤ cs.length := by
  cases cs with
  | nil => simp [scanSign]
  | cons c r => by_cases h : c = '-' <;> simp [scanSign, h]

theorem scanExpSign_length (cs : List Char) : (scanExpSign cs).2.length ≤ cs.length := by
  cases cs with
  | nil => simp [scanExpSign]
  | cons c r => by_cases h : c = '+' ∨ c = '-' <;> simp [scanExpSign, h]

theorem scanInt_length (cs : List Char) (p : List Char × List Char)
    (h : scanInt cs = some p) : p.2.length < cs.length := by
  cases cs with
  | nil => simp [scanInt] at h
  | cons c r =>
    have ht := takeDigits_length r
    by_cases hd : isDigit c = true
    · by_cases hz : c = '0'
      · subst hz
        have h0 : isDigit '0' = true := by decide
        simp [scanInt, h0] at h
        subst h
        simp
      · simp [scanInt, hd, hz] at h
        subst h
        simp only [List.length_cons]
        omega
    · simp [scanInt, hd] at h

theorem scanFrac_length (cs : List Char) (p : List Char × List Char)
    (h : scanFrac cs = some p) : p.2.length ≤ cs.length := by
  cases cs with
  | nil => simp [scanFrac] at h; subst h; simp
  | cons c r =>
    have ht := takeDigits_length r
    by_cases hd : c = '.'
    · by_cases he : (takeDigits r).1 = []
      · simp [scanFrac, hd, he] at h
      · simp [scanFrac, hd, he] at h
        subst h
        simp only [List.length_cons]
        omega
    · simp [scanFrac, hd] at h
      subst h
      simp

theorem scanExp_length (cs : List Char) (p : List Char × List Char)
    (h : scanExp cs = some p) : p.2.length ≤ cs.length := by
  cases cs with
  | nil => simp [scanExp] at h; subst h; simp
  | cons c r =>
    have ht := takeDigits_length (scanExpSign r).2
    have hs := scanExpSign_length r
    by_cases hd : c = 'e' ∨ c = 'E'
    · by_cases he : (takeDigits (scanExpSign r).2).1 = []
      · simp [scanExp, hd, he] at h
      · simp [scanExp, hd, he] at h
        subst h
        simp only [List.length_cons]
        omega
    · simp [scanExp, hd] at h
      subst h
      simp

theorem scanNumber_length (cs : List Char) (p : List Char × List Char)
    (h : scanNumber cs = some p) : p.2.length < cs.length := by
  unfold scanNumber at h
  have hs := scanSign_length cs
  cases h1 : scanInt (scanSign cs).2 with
  | none => simp [h1] at h
  | some p1 =>
    have l1 := scanInt_length _ _ h1
    simp only [h1] at h
    cases h2 : scanFrac p1.2 with
    | none => simp [h2] at h
    | some p2 =>
      have l2 := scanFrac_length _ _ h2
      simp only [h2] at h
      cases h3 : scanExp p2.2 with
      | none => simp [h3] at h
      | some p3 =>
        have l3 := scanExp_length _ _ h3
        simp only [h3, Option.some.injEq] at h
        subst h
        simp only
        omega

theorem getu4_length (cs : List Char) (n : Nat) (r : List Char)
    (h : getu4 cs = some (n, r)) : r.length + 6 = cs.length := by
  unfold getu4 at h
  split at h
  · split at h
    · simp only [Option.some.injEq, Prod.mk.injEq] at h
      rw [← h.2]
      simp
    · cases h
  · cases h


theorem unquoteBody_rec (n : Nat) (X cs : List Char) (g : List Char → List Char)
    (p : List Char × List Char) (hX : X.length < cs.length)
    (ih : ∀ q, unquoteBody n X = some q → q.2.length < X.length ∧
      ∀ m, X.length - q.2.length ≤ m → unquoteBody m X = some q)
    (h : (unquoteBody n X).map (fun q => (g q.1, q.2)) = some p) :
    p.2.length < cs.length ∧ ∀ m, cs.length - p.2.length ≤ m + 1 →
      (unquoteBody m X).map (fun q => (g q.1, q.2)) = some p := by
  cases hq : unquoteBody n X with
  | none => simp [hq] at h
  | some q =>
    simp only [hq, Option.map_some', Option.some.injEq] at h
    obtain ⟨h1, h2⟩ := ih q hq
    subst h
    refine ⟨by simp only; omega, ?_⟩
    intro m hm
    rw [h2 m (by simp only at hm; omega)]
    rfl

theorem unquoteBody_fuel : ∀ (n : Nat) (cs : List Char) (p : List Char × List Char),
    unquoteBody n cs = some p →
    p.2.length < cs.length ∧ ∀ m, cs.length - p.2.length ≤ m → unquoteBody m cs = some p := by
  intro n
  induction n with
  | zero => intro cs p h; simp [unquoteBody] at h
  | succ n ih =>
    intro cs p h
    cases cs with
    | nil => simp [unquoteBody] at h
    | cons c rest =>
      simp only [unquoteBody] at h
      -- every branch that succeeds is the closing quote or one recursive call
      have fin : ∀ (X : List Char) (g : List Char → List Char), X.length < (c :: rest).length →
          (unquoteBody n X).map (fun q => (g q.1, q.2)) = some p →
          (∀ m, unquoteBody (m + 1) (c :: rest) =
            (unquoteBody m X).map (fun q => (g q.1, q.2))) →
          p.2.length < (c :: rest).length ∧
            ∀ m, (c :: rest).length - p.2.length ≤ m → unquoteBody m (c :: rest) = some p := by
        intro X g hX hmap hstep
        obtain ⟨h1, h2⟩ := unquoteBody_rec n X (c :: rest) g p hX (ih X) hmap
        refine ⟨h1, ?_⟩
        intro m hm
        cases m with
        | zero => omega
        | succ m => rw [hstep m]; exact h2 m (by omega)
      by_cases h1 : c = '"'
      · simp only [h1, if_true, Option.some.injEq] at h
        subst h
        refine ⟨by simp, ?_⟩
        intro m hm
        cases m with
        | zero => simp at hm
        | succ m => simp [unquoteBody, h1]
      · simp only [h1, if_false] at h
        by_cases h2 : c = '\\'
        · simp only [h2, if_true] at h
          cases rest with
          | nil => simp at h
          | cons e rest' =>
            simp only at h
            by_cases h3 : e = 'u'
            · simp only [h3, if_true] at h
              cases hg : getu4 (c :: e :: rest') with
              | none => rw [h2, h3] at hg; simp [hg] at h
              | some w =>
                obtain ⟨rr, r1⟩ := w
                have hl1 := getu4_length _ _ _ hg
                rw [h2, h3] at hg
                simp only [hg] at h
                by_cases h4 : 0xD800 ≤ rr ∧ rr < 0xE000
                · simp only [h4, and_self, if_true] at h
                  cases hg2 : getu4 r1 with
                  | none =>
                    simp only [hg2] at h
                    apply fin r1 _ (by omega) h
                    intro m
                    simp [unquoteBody, h1, h2, h3, hg, h4, hg2]
                  | some w2 =>
                    obtain ⟨rr1, r2⟩ := w2
                    have hl2 := getu4_length _ _ _ hg2
                    simp only [hg2] at h
                    by_cases h5 : rr < 0xDC00 ∧ 0xDC00 ≤ rr1 ∧ rr1 < 0xE000
                    · simp only [h5, and_self, if_true] at h
                      apply fin r2 _ (by omega) h
                      intro m
                      simp [unquoteBody, h1, h2, h3, hg, h4, hg2, h5]
                    · simp only [h5, if_false] at h
                      apply fin r1 _ (by omega) h
                      intro m
                      simp [unquoteBody, h1, h2, h3, hg, h4, hg2, h5]
                · simp only [h4, if_false] at h
                  apply fin r1 _ (by omega) h
                  intro m
                  simp [unquoteBody, h1, h2, h3, hg, h4]
            · simp only [h3, if_false] at h
              split at h
              · cases h
              · rename_i d hd
                apply fin rest' _ (by simp only [List.length_cons]; omega) h
                intro m
                simp only [unquoteBody, h1, h2, h3, if_false, if_true]
                rw [hd]
                simp
        · simp only [h2, if_false] at h
          by_cases h3 : c.toNat < 0x20
          · simp [h3] at h
          · simp only [h3, if_false] at h
            apply fin rest _ (by simp) h
            intro m
            simp [unquoteBody, h1, h2, h3]


theorem parseValue_step (f : Nat)
    (hE : ∀ d cs p, parseElems f d cs = some p → p.2.length + 2 ≤ cs.length ∧
      ∀ g, 2 * (cs.length - p.2.length) ≤ g + 2 → parseElems g d cs = some p)
    (hM : ∀ d cs p, parseMembers f d cs = some p → p.2.length + 2 ≤ cs.length ∧
      ∀ g, 2 * (cs.length - p.2.length) ≤ g + 2 → parseMembers g d cs = some p)
    (d : Nat) (cs : List Char) (p : JSONValue × List Char)
    (h : parseValue (f + 1) d cs = some p) :
    p.2.length < cs.length ∧
      ∀ g, 2 * (cs.length - p.2.length) ≤ g + 1 → parseValue g d cs = some p := by
  simp only [parseValue] at h
  have hlen := skipSpace_length_le cs
  cases hsk : skipSpace cs with
  | nil => simp [hsk] at h
  | cons c rest =>
    rw [hsk] at hlen
    simp only [hsk, List.length_cons] at h hlen
    -- branches without a nested call give the same result for every bound
    have flat : p.2.length < cs.length →
        (∀ g, parseValue (g + 1) d cs = some p) →
        p.2.length < cs.length ∧
          ∀ g, 2 * (cs.length - p.2.length) ≤ g + 1 → parseValue g d cs = some p := by
      intro hl hg
      refine ⟨hl, ?_⟩
      intro g hb
      cases g with
      | zero => omega
      | succ g => exact hg g
    by_cases h1 : c = '{'
    · simp only [h1, if_true] at h
      cases d with
      | zero => simp at h
      | succ d =>
        simp only at h
        have hlen2 := skipSpace_length_le rest
        cases hsk2 : skipSpace rest with
        | nil => simp [hsk2] at h
        | cons e r =>
          rw [hsk2] at hlen2
          simp only [hsk2, List.length_cons] at h hlen2
          by_cases h2 : e = '}'
          · simp only [h2, if_true, Option.some.injEq] at h
            subst h
            apply flat (by simp only; omega)
            intro g
            simp [parseValue, hsk, h1, hsk2, h2]
          · simp only [h2, if_false] at h
            cases hq : parseMembers f d (e :: r) with
            | none => simp [hq] at h
            | some q =>
              simp only [hq, Option.map_some', Option.some.injEq] at h
              obtain ⟨l1, l2⟩ := hM _ _ _ hq
              simp only [List.length_cons] at l1 l2
              subst h
              refine ⟨by simp only; omega, ?_⟩
              intro g hb
              simp only at hb
              cases g with
              | zero => omega
              | succ g =>
                have := l2 g (by omega)
                simp [parseValue, hsk, h1, hsk2, h2, this]
    · simp only [h1, if_false] at h
      by_cases h2 : c = '['
      · simp only [h2, if_true] at h
        cases d with
        | zero => simp at h
        | succ d =>
          simp only at h
          have hlen2 := skipSpace_length_le rest
          cases hsk2 : skipSpace rest with
          | nil => simp [hsk2] at h
          | cons e r =>
            rw [hsk2] at hlen2
            simp only [hsk2, List.length_cons] at h hlen2
            by_cases h3 : e = ']'
            · simp only [h3, if_true, Option.some.injEq] at h
              subst h
              apply flat (by simp only; omega)
              intro g
              simp [parseValue, hsk, h1, h2, hsk2, h3]
            · simp only [h3, if_false] at h
              cases hq : parseElems f d (e :: r) with
              | none => simp [hq] at h
              | some q =>
                simp only [hq, Option.map_some', Option.some.injEq] at h
                obtain ⟨l1, l2⟩ := hE _ _ _ hq
                simp only [List.length_cons] at l1 l2
                subst h
                refine ⟨by simp only; omega, ?_⟩
                intro g hb
                simp only at hb
                cases g with
                | zero => omega
                | succ g =>
                  have := l2 g (by omega)
                  simp [parseValue, hsk, h1, h2, hsk2, h3, this]
      · simp only [h2, if_false] at h
        by_cases h3 : c = '"'
        · simp only [h3, if_true] at h
          cases hq : unquoteBody (rest.length + 1) rest with
          | none => simp [hq] at h
          | some q =>
            simp only [hq, Option.map_some', Option.some.injEq] at h
            have l1 := (unquoteBody_fuel _ _ _ hq).1
            subst h
            apply flat (by simp only; omega)
            intro g
            simp [parseValue, hsk, h1, h2, h3, hq]
        · simp only [h3, if_false] at h
          by_cases h4 : c = 't'
          · simp only [h4, if_true] at h
            split at h
            · rename_i r
              simp only [Option.some.injEq] at h
              subst h
              simp only [List.length_cons] at hlen
              apply flat (by simp only; omega)
              intro g
              simp [parseValue, hsk, h1, h2, h3, h4]
            · cases h
          · simp only [h4, if_false] at h
            by_cases h5 : c = 'f'
            · simp only [h5, if_true] at h
              split at h
              · rename_i r
                simp only [Option.some.injEq] at h
                subst h
                simp only [List.length_cons] at hlen
                apply flat (by simp only; omega)
                intro g
                simp [parseValue, hsk, h1, h2, h3, h4, h5]
              · cases h
            · simp only [h5, if_false] at h
              by_cases h6 : c = 'n'
              · simp only [h6, if_true] at h
                split at h
                · rename_i r
                  simp only [Option.some.injEq] at h
                  subst h
                  simp only [List.length_cons] at hlen
                  apply flat (by simp only; omega)
                  intro g
                  simp [parseValue, hsk, h1, h2, h3, h4, h5, h6]
                · cases h
              · simp only [h6, if_false] at h
                cases hq : scanNumber (c :: rest) with
                | none => simp [hq] at h
                | some q =>
                  simp only [hq, Option.map_some', Option.some.injEq] at h
                  have l1 := scanNumber_length _ _ hq
                  simp only [List.length_cons] at l1
                  subst h
                  apply flat (by simp only; omega)
                  intro g
                  simp [parseValue, hsk, h1, h2, h3, h4, h5, h6, hq]


theorem parseElems_step (f : Nat)
    (hS : ∀ d cs p, parseValue f d cs = some p → p.2.length < cs.length ∧
      ∀ g, 2 * (cs.length - p.2.length) ≤ g + 1 → parseValue g d cs = some p)
    (hE : ∀ d cs p, parseElems f d cs = some p → p.2.length + 2 ≤ cs.length ∧
      ∀ g, 2 * (cs.length - p.2.length) ≤ g + 2 → parseElems g d cs = some p)
    (d : Nat) (cs : List Char) (p : List JSONValue × List Char)
    (h : parseElems (f + 1) d cs = some p) :
    p.2.length + 2 ≤ cs.length ∧
      ∀ g, 2 * (cs.length - p.2.length) ≤ g + 2 → parseElems g d cs = some p := by
  simp only [parseElems] at h
  cases hv : parseValue f d cs with
  | none => simp [hv] at h
  | some w =>
    obtain ⟨v, r⟩ := w
    obtain ⟨l1, l2⟩ := hS _ _ _ hv
    simp only [hv] at h l1 l2
    have hlen := skipSpace_length_le r
    cases hsk : skipSpace r with
    | nil => simp [hsk] at h
    | cons c r1 =>
      rw [hsk] at hlen
      simp only [hsk, List.length_cons] at h hlen
      by_cases h1 : c = ','
      · simp only [h1, if_true] at h
        cases hq : parseElems f d r1 with
        | none => simp [hq] at h
        | some q =>
          simp only [hq, Option.map_some', Option.some.injEq] at h
          obtain ⟨l3, l4⟩ := hE _ _ _ hq
          subst h
          refine ⟨by simp only; omega, ?_⟩
          intro g hb
          simp only at hb
          cases g with
          | zero => omega
          | succ g =>
            have e1 := l2 g (by omega)
            have e2 := l4 g (by omega)
            simp [parseElems, e1, hsk, h1, e2]
      · simp only [h1, if_false] at h
        by_cases h2 : c = ']'
        · simp only [h2, if_true, Option.some.injEq] at h
          subst h
          refine ⟨by simp only; omega, ?_⟩
          intro g hb
          simp only at hb
          cases g with
          | zero => omega
          | succ g =>
            have e1 := l2 g (by omega)
            simp [parseElems, e1, hsk, h1, h2]
        · simp [h2] at h

theorem parseMembers_step (f : Nat)
    (hS : ∀ d cs p, parseValue f d cs = some p → p.2.length < cs.length ∧
      ∀ g, 2 * (cs.length - p.2.length) ≤ g + 1 → parseValue g d cs = some p)
    (hM : ∀ d cs p, parseMembers f d cs = some p → p.2.length + 2 ≤ cs.length ∧
      ∀ g, 2 * (cs.length - p.2.length) ≤ g + 2 → parseMembers g d cs = some p)
    (d : Nat) (cs : List Char) (p : List (String × JSONValue) × List Char)
    (h : parseMembers (f + 1) d cs = some p) :
    p.2.length + 2 ≤ cs.length ∧
      ∀ g, 2 * (cs.length - p.2.length) ≤ g + 2 → parseMembers g d cs = some p := by
  cases cs with
  | nil => simp [parseMembers] at h
  | cons q0 r0 =>
    simp only [parseMembers] at h
    by_cases h0 : q0 = '"'
    · simp only [h0, ne_eq, not_true_eq_false, if_false] at h
      cases hk : unquoteBody (r0.length + 1) r0 with
      | none => simp [hk] at h
      | some w =>
        obtain ⟨k, r1⟩ := w
        have lk := (unquoteBody_fuel _ _ _ hk).1
        simp only [hk] at h lk
        have hlen1 := skipSpace_length_le r1
        cases hsk1 : skipSpace r1 with
        | nil => simp [hsk1] at h
        | cons c1 r2 =>
          rw [hsk1] at hlen1
          simp only [hsk1, List.length_cons] at h hlen1
          by_cases h1 : c1 = ':'
          · simp only [h1, ne_eq, not_true_eq_false, if_false] at h
            cases hv : parseValue f d r2 with
            | none => simp [hv] at h
            | some w2 =>
              obtain ⟨v, r3⟩ := w2
              obtain ⟨l1, l2⟩ := hS _ _ _ hv
              simp only [hv] at h l1 l2
              have hlen3 := skipSpace_length_le r3
              cases hsk3 : skipSpace r3 with
              | nil => simp [hsk3] at h
              | cons c2 r4 =>
                rw [hsk3] at hlen3
                simp only [hsk3, List.length_cons] at h hlen3
                have hlen4 := skipSpace_length_le r4
                by_cases h2 : c2 = ','
                · simp only [h2, if_true] at h
                  cases hq : parseMembers f d (skipSpace r4) with
                  | none => simp [hq] at h
                  | some q =>
                    simp only [hq, Option.map_some', Option.some.injEq] at h
                    obtain ⟨l3, l4⟩ := hM _ _ _ hq
                    subst h
                    refine ⟨by simp only [List.length_cons]; omega, ?_⟩
                    intro g hb
                    simp only [List.length_cons] at hb
                    cases g with
                    | zero => omega
                    | succ g =>
                      have e1 := l2 g (by omega)
                      have e2 := l4 g (by omega)
                      simp [parseMembers, h0, hk, hsk1, h1, e1, hsk3, h2, e2]
                · simp only [h2, if_false] at h
                  by_cases h3 : c2 = '}'
                  · simp only [h3, if_true, Option.some.injEq] at h
                    subst h
                    refine ⟨by simp only [List.length_cons]; omega, ?_⟩
                    intro g hb
                    simp only [List.length_cons] at hb
                    cases g with
                    | zero => omega
                    | succ g =>
                      have e1 := l2 g (by omega)
                      simp [parseMembers, h0, hk, hsk1, h1, e1, hsk3, h2, h3]
                  · simp [h3] at h
          · simp [h1] at h
    · simp [h0] at h

theorem parse_fuel (f : Nat) :
    (∀ d cs p, parseValue f d cs = some p → p.2.length < cs.length ∧
      ∀ g, 2 * (cs.length - p.2.length) ≤ g + 1 → parseValue g d cs = some p) ∧
    (∀ d cs p, parseElems f d cs = some p → p.2.length + 2 ≤ cs.length ∧
      ∀ g, 2 * (cs.length - p.2.length) ≤ g + 2 → parseElems g d cs = some p) ∧
    (∀ d cs p, parseMembers f d cs = some p → p.2.length + 2 ≤ cs.length ∧
      ∀ g, 2 * (cs.length - p.2.length) ≤ g + 2 → parseMembers g d cs = some p) := by
  induction f with
  | zero =>
    refine ⟨?_, ?_, ?_⟩ <;> intro d cs p h
    · simp [parseValue] at h
    · simp [parseElems] at h
    · simp [parseMembers] at h
  | succ f ih =>
    exact ⟨parseValue_step f ih.2.1 ih.2.2, parseElems_step f ih.1 ih.2.1,
      parseMembers_step f ih.1 ih.2.2⟩

/-- A text that parses as one value, nested within the scanner's limit, under
any bound on the nested calls is parsed by `parseJSON`: the bound it uses
rejects no valid text. -/
theorem parseJSON_of_parseValue (f : Nat) (data : List Char) (v : JSONValue)
    (rest : List Char) (h : parseValue f maxNestingDepth data = some (v, rest))
    (hr : skipSpace rest = []) : parseJSON data = some v := by
  have key := ((parse_fuel f).1 maxNestingDepth data (v, rest) h).2 (2 * data.length + 2) (by
    simp only
    omega)
  simp [parseJSON, key, hr]

/-- The same for string literals: the bound `unquoteBody` is called with
rejects none. -/
theorem unquoteBody_of_any (n : Nat) (cs : List Char) (p : List Char × List Char)
    (h : unquoteBody n cs = some p) : unquoteBody (cs.length + 1) cs = some p :=
  (unquoteBody_fuel n cs p h).2 _ (by omega)

end RestyFacade

